import Mathlib

/-!
Verification development for the ClaudeCast repository.

Strings are modelled as lists of characters (`Str`).  The two core
subsystems embedded here are the Template Engine (`substituteVariables`
in prompt-library) and the Process Bridge (`executePrompt` /
`getClaudePath` in claude-cli), plus the usage-statistics aggregation
(`calculateStats` in usage-stats).  Each definition is a direct
transcription of the corresponding TypeScript function; JavaScript
regular-expression replacement is modelled as a left-to-right,
non-rescanning literal scan, which is what the patterns used by the
source compile to.
-/

namespace ClaudeCast

abbrev Str := List Char

/-- JavaScript word-character class `\w`, i.e. `[A-Za-z0-9_]`. -/
def isWordChar (c : Char) : Bool :=
  ('a' ≤ c && c ≤ 'z') || ('A' ≤ c && c ≤ 'Z') || ('0' ≤ c && c ≤ '9') || c = '_'

/-- JavaScript whitespace class `\s`, restricted to its ASCII members
(space, tab, line feed, carriage return, vertical tab, form feed). -/
def isJsSpace (c : Char) : Bool :=
  c = ' ' || c = '\t' || c = '\n' || c = '\r' || c = Char.ofNat 11 || c = Char.ofNat 12

/-- JavaScript `String.prototype.trim`: strip whitespace from both ends. -/
def jsTrim (s : Str) : Str :=
  ((s.dropWhile isJsSpace).reverse.dropWhile isJsSpace).reverse

/-- Match a literal pattern at the head of a string, returning the rest
after the pattern on success. -/
def matchLit : Str → Str → Option Str
  | [], s => some s
  | _ :: _, [] => none
  | p :: ps, c :: cs => if c = p then matchLit ps cs else none

/-- JavaScript object access on a record of string values (`variables[name]`). -/
def lookupVar : List (Str × Str) → Str → Option Str
  | [], _ => none
  | (k, v) :: rest, nm => if k = nm then some v else lookupVar rest nm

/-! ## Template Engine (`substituteVariables`, prompt-library)

Step 1 expands `{{#if name}}...{{/if}}` conditional spans with the
regular expression `/\{\{#if\s+(\w+)\}\}([\s\S]*?)\{\{\/if\}\}/g`:
leftmost match, greedy `\s+`/`\w+` (the two classes are disjoint, so the
match is deterministic), non-greedy body closed by the first block-end
marker, global replacement without rescanning replaced text.
Step 2 replaces, for each entry of the value map in order, every
occurrence of the literal placeholder token with the entry's value. -/

/-- The literal characters of the block-start opener, left brace, left
brace, hash, i, f. -/
def litIf : Str := [Char.ofNat 123, Char.ofNat 123, '#', 'i', 'f']

/-- The literal block-end marker (two left braces, slash, i, f, two
right braces). -/
def closeTok : Str :=
  [Char.ofNat 123, Char.ofNat 123, '/', 'i', 'f', Char.ofNat 125, Char.ofNat 125]

/-- Two right braces, closing a block-start marker. -/
def rbrb : Str := [Char.ofNat 125, Char.ofNat 125]

/-- Attempt to match the block-start marker `{{#if\s+(\w+)}}` at the head
of the string; on success return the captured variable name and the rest
of the string after the marker. -/
def matchBlockStart (s : Str) : Option (Str × Str) :=
  match matchLit litIf s with
  | none => none
  | some r1 =>
    if (r1.takeWhile isJsSpace).isEmpty then none
    else
      let r2 := r1.dropWhile isJsSpace
      let nm := r2.takeWhile isWordChar
      if nm.isEmpty then none
      else
        match matchLit rbrb (r2.dropWhile isWordChar) with
        | none => none
        | some r3 => some (nm, r3)

/-- Find the first occurrence of the block-end marker; return the content
before it and the rest after it. -/
def findClose : Str → Option (Str × Str)
  | [] => none
  | c :: cs =>
    match matchLit closeTok (c :: cs) with
    | some rest => some ([], rest)
    | none =>
      match findClose cs with
      | some (content, rest) => some (c :: content, rest)
      | none => none

/-- Truthiness test used by the conditional-block callback:
`value && value.trim()` for a looked-up variable value (absent keys are
`undefined`, hence falsy). -/
def condTruthy (vars : List (Str × Str)) (nm : Str) : Bool :=
  match lookupVar vars nm with
  | none => false
  | some v => !v.isEmpty && !(jsTrim v).isEmpty

/-- Fuel-indexed body of the conditional-block scan; every recursive
call consumes at least one character, so any fuel at least the input
length is sufficient. -/
def expandCondGo (vars : List (Str × Str)) : Nat → Str → Str
  | 0, s => s
  | _ + 1, [] => []
  | fuel + 1, c :: cs =>
    match matchBlockStart (c :: cs) with
    | some (nm, afterStart) =>
      match findClose afterStart with
      | some (content, afterClose) =>
        (if condTruthy vars nm then content else []) ++ expandCondGo vars fuel afterClose
      | none => c :: expandCondGo vars fuel cs
    | none => c :: expandCondGo vars fuel cs

/-- Step 1 of `substituteVariables`: global replacement of the
conditional-block pattern.  The scan walks left to right; at each
position it tries to match a block-start marker followed (anywhere
later) by the first block-end marker; on a match the whole span is
replaced by its content (variable truthy) or by nothing (falsy) and the
scan resumes after the span, never rescanning replaced text. -/
def expandCond (vars : List (Str × Str)) (s : Str) : Str :=
  expandCondGo vars s.length s

/-- ECMAScript GetSubstitution for a replacement string against a match
of a zero-capture pattern: `$$` yields a dollar sign, `$&` the matched
text, dollar-backquote the part of the whole subject before the match,
dollar-quote the part after it; any other dollar (including `$n`, which
with no capture groups stays literal, and `$<`, with no named groups) is
literal. -/
def getSubstitution (matched before after : Str) : Str → Str
  | [] => []
  | c :: rest =>
    if c = '$' then
      match rest with
      | [] => ['$']
      | d :: r2 =>
        if d = '$' then '$' :: getSubstitution matched before after r2
        else if d = '&' then matched ++ getSubstitution matched before after r2
        else if d = Char.ofNat 96 then before ++ getSubstitution matched before after r2
        else if d = Char.ofNat 39 then after ++ getSubstitution matched before after r2
        else '$' :: d :: getSubstitution matched before after r2
    else c :: getSubstitution matched before after rest

/-- A string with no dollar character (its GetSubstitution is itself). -/
def noDollar (s : Str) : Bool := s.all (fun c => !(c == '$'))

/-- Fuel-indexed body of literal global replacement; `before` is the
part of the whole subject already scanned (needed by the
dollar-backquote substitution pattern). -/
def replaceAllGo (pat repl : Str) : Nat → Str → Str → Str
  | 0, _, s => s
  | _ + 1, _, [] => []
  | fuel + 1, before, c :: cs =>
    match matchLit pat (c :: cs) with
    | some rest =>
      if pat.isEmpty then c :: replaceAllGo pat repl fuel (before ++ [c]) cs
      else getSubstitution pat before rest repl ++
        replaceAllGo pat repl fuel (before ++ pat) rest
    | none => c :: replaceAllGo pat repl fuel (before ++ [c]) cs

/-- Global replacement of a literal (nonempty) pattern: leftmost match,
replaced text is not rescanned, and each match inserts the replacement
string processed by ECMAScript GetSubstitution (the matched text of the
literal pattern is the pattern itself, and the portion of the subject
after the match is the unscanned rest).  This is
`String.prototype.replace` with a `g`-flagged literal-character regular
expression and a string replacement. -/
def replaceAll (pat repl s : Str) : Str :=
  replaceAllGo pat repl s.length [] s

/-- The placeholder token `{{name}}` for a variable name. -/
def placeholderTok (nm : Str) : Str :=
  [Char.ofNat 123, Char.ofNat 123] ++ nm ++ [Char.ofNat 125, Char.ofNat 125]

/-- Step 2 of `substituteVariables`: for each entry of the value map, in
order, globally replace its placeholder token with its value (`value ||
""` is the value itself for the string-typed record). -/
def substituteStep2 (vars : List (Str × Str)) (s : Str) : Str :=
  vars.foldl (fun acc kv => replaceAll (placeholderTok kv.1) kv.2 acc) s

/-- `substituteVariables` (prompt-library): conditional-block expansion
followed by placeholder substitution. -/
def substituteVariables (prompt : Str) (vars : List (Str × Str)) : Str :=
  substituteStep2 vars (expandCond vars prompt)

/-- Whether a pattern occurs as a contiguous substring (scan over every
suffix). -/
def containsSeq (pat : Str) : Str → Bool
  | [] => pat.isEmpty
  | c :: cs => (matchLit pat (c :: cs)).isSome || containsSeq pat cs

/-- A string with no brace characters. -/
def noBrace (s : Str) : Bool :=
  s.all (fun c => !(c == Char.ofNat 123) && !(c == Char.ofNat 125))

/-- A nonempty all-word-character variable name. -/
def wordName (s : Str) : Bool := !s.isEmpty && s.all isWordChar

/-- A fragment of the text reaching Step 2: either plain text or a
placeholder token. -/
inductive Piece where
  | lit (s : Str) : Piece
  | tok (nm : Str) : Piece

def flattenPiece : Piece → Str
  | .lit s => s
  | .tok nm => placeholderTok nm

def flattenPieces (ps : List Piece) : Str := (ps.map flattenPiece).flatten

/-- Well-formedness of a Step-2 fragment: plain text has no braces, a
placeholder token has a nonempty word-character name. -/
def pieceWF : Piece → Bool
  | .lit s => noBrace s
  | .tok nm => wordName nm

/-- The effect of Step 2 on one fragment: a placeholder whose name is in
the value map becomes its value, any other fragment is untouched. -/
def substPiece (vars : List (Str × Str)) : Piece → Piece
  | .lit s => .lit s
  | .tok u =>
    match lookupVar vars u with
    | some v => .lit v
    | none => .tok u

/-- A segment of a template body: a literal run, a placeholder token, or
a conditional block `{{#if nm}}inner{{/if}}`. -/
inductive Seg where
  | lit (s : Str) : Seg
  | ph (nm : Str) : Seg
  | cond (nm : Str) (inner : Str) : Seg

def flattenSeg : Seg → Str
  | .lit s => s
  | .ph nm => placeholderTok nm
  | .cond nm inner => litIf ++ ' ' :: (nm ++ rbrb ++ inner ++ closeTok)

/-- The template body denoted by a segment list. -/
def flatten (t : List Seg) : Str := (t.map flattenSeg).flatten

/-- Well-formedness of a template segment: literal runs are brace-free,
names are nonempty word-character runs, and a conditional block's inner
content contains no (possibly boundary-spanning) block-end marker. -/
def segWF : Seg → Bool
  | .lit s => noBrace s
  | .ph nm => wordName nm
  | .cond nm inner =>
    wordName nm && !(containsSeq closeTok (inner ++ closeTok.take 6))

/-- The Step-2 fragment a segment leaves behind when every conditional
block is falsy (the all-empty-values rendering). -/
def segDrop : Seg → Piece
  | .lit s => .lit s
  | .ph nm => .tok nm
  | .cond _ _ => .lit []

/-! ## JSON values and `JSON.parse`

JSON numbers are modelled as rationals (the source only ever reads them
back as opaque numbers).  The parser below is a direct model of
`JSON.parse` on the grammar the Process Bridge consumes: values are
null, booleans, numbers, strings (with the standard escapes; surrogate
pairs in `\u` escapes are not combined), arrays and objects. -/

inductive Json where
  | null : Json
  | bool (b : Bool) : Json
  | num (q : ℚ) : Json
  | str (s : Str) : Json
  | arr (elems : List Json) : Json
  | obj (fields : List (Str × Json)) : Json

/-- JavaScript property access on a parsed object: for duplicate keys
`JSON.parse` keeps the last occurrence; non-objects have no fields. -/
def Json.getField : Json → Str → Option Json
  | .obj fields, k => fields.foldl (fun acc p => if p.1 = k then some p.2 else acc) none
  | _, _ => none

/-- JavaScript truthiness of a parsed JSON value. -/
def jsTruthy : Json → Bool
  | .null => false
  | .bool b => b
  | .num q => q ≠ 0
  | .str s => !s.isEmpty
  | .arr _ => true
  | .obj _ => true

/-- Whether an optional field is present and truthy (an absent field is
`undefined`, hence falsy). -/
def jsTruthyOpt : Option Json → Bool
  | some j => jsTruthy j
  | none => false

/-- Bool test that an optional field holds a given string. -/
def isStrField (o : Option Json) (t : Str) : Bool :=
  match o with
  | some (.str s) => s = t
  | _ => false

/-- JSON whitespace accepted by `JSON.parse` between tokens. -/
def isJsonWs (c : Char) : Bool :=
  c = ' ' || c = '\t' || c = '\n' || c = '\r'

def skipWs (s : Str) : Str := s.dropWhile isJsonWs

def isDigit (c : Char) : Bool := '0' ≤ c && c ≤ '9'

def digitVal (c : Char) : Nat := c.toNat - '0'.toNat

def digitsToNat (ds : Str) : Nat := ds.foldl (fun a c => a * 10 + digitVal c) 0

def isHexDigit (c : Char) : Bool :=
  isDigit c || ('a' ≤ c && c ≤ 'f') || ('A' ≤ c && c ≤ 'F')

def hexVal (c : Char) : Nat :=
  if isDigit c then digitVal c
  else if 'a' ≤ c && c ≤ 'f' then c.toNat - 'a'.toNat + 10
  else c.toNat - 'A'.toNat + 10

/-- Parse a JSON number (after the optional leading minus sign has been
handled by the caller): `int frac? exp?` with no leading zeros. -/
def parseNumCore (s : Str) : Option (ℚ × Str) :=
  let ip := s.takeWhile isDigit
  if ip.isEmpty then none
  else if 1 < ip.length && ip.headD ' ' = '0' then none
  else
    let r1 := s.dropWhile isDigit
    let intVal : ℚ := (digitsToNat ip : ℚ)
    let (v2, r2) :=
      match r1 with
      | '.' :: t =>
        let fp := t.takeWhile isDigit
        if fp.isEmpty then (none, r1)
        else (some (intVal + (digitsToNat fp : ℚ) / (10 : ℚ) ^ fp.length),
              t.dropWhile isDigit)
      | _ => (some intVal, r1)
    match v2 with
    | none => none
    | some v =>
      match r2 with
      | 'e' :: t => parseExp v t
      | 'E' :: t => parseExp v t
      | _ => some (v, r2)
where
  parseExp (v : ℚ) (t : Str) : Option (ℚ × Str) :=
    let (sign, t2) : (Bool × Str) :=
      match t with
      | '+' :: u => (true, u)
      | '-' :: u => (false, u)
      | _ => (true, t)
    let ds := t2.takeWhile isDigit
    if ds.isEmpty then none
    else
      let e := digitsToNat ds
      some (if sign then v * (10 : ℚ) ^ e else v / (10 : ℚ) ^ e, t2.dropWhile isDigit)

/-- Decode a single-character string escape. -/
def escChar (e : Char) : Option Char :=
  if e = '"' then some '"'
  else if e = '\\' then some '\\'
  else if e = '/' then some '/'
  else if e = 'b' then some (Char.ofNat 8)
  else if e = 'f' then some (Char.ofNat 12)
  else if e = 'n' then some '\n'
  else if e = 'r' then some '\r'
  else if e = 't' then some '\t'
  else none

/-- Fuel-indexed parse of a JSON string body after the opening quote, up
to and past the closing quote.  Unescaped control characters are
rejected, standard escapes are decoded, `\u` escapes become the code
unit's character (surrogate-pair combination is not modelled). -/
def parseJStrGo : Nat → Str → Option (Str × Str)
  | 0, _ => none
  | _ + 1, [] => none
  | fuel + 1, c :: rest =>
    if c = '"' then some ([], rest)
    else if c = '\\' then
      match rest with
      | [] => none
      | e :: rest2 =>
        match escChar e with
        | some d => (parseJStrGo fuel rest2).map (fun p => (d :: p.1, p.2))
        | none =>
          if e = 'u' then
            match rest2 with
            | h1 :: h2 :: h3 :: h4 :: rest3 =>
              if isHexDigit h1 && isHexDigit h2 && isHexDigit h3 && isHexDigit h4 then
                (parseJStrGo fuel rest3).map (fun p =>
                  (Char.ofNat (((hexVal h1 * 16 + hexVal h2) * 16 + hexVal h3) * 16 + hexVal h4)
                    :: p.1, p.2))
              else none
            | _ => none
          else none
    else if c.toNat < 32 then none
    else (parseJStrGo fuel rest).map (fun p => (c :: p.1, p.2))

def parseJStr (s : Str) : Option (Str × Str) :=
  parseJStrGo (s.length + 1) s

mutual

/-- Parse one JSON value (fuel-indexed; the callers supply fuel exceeding
the input length, which is always sufficient since every recursive call
consumes at least one character). -/
def parseValue : Nat → Str → Option (Json × Str)
  | 0, _ => none
  | fuel + 1, s =>
    match skipWs s with
    | [] => none
    | c :: cs =>
      if c = 'n' then (matchLit ['u', 'l', 'l'] cs).map (fun r => (Json.null, r))
      else if c = 't' then (matchLit ['r', 'u', 'e'] cs).map (fun r => (Json.bool true, r))
      else if c = 'f' then (matchLit ['a', 'l', 's', 'e'] cs).map (fun r => (Json.bool false, r))
      else if c = '"' then (parseJStr cs).map (fun p => (Json.str p.1, p.2))
      else if c = '[' then
        match skipWs cs with
        | ']' :: r => some (Json.arr [], r)
        | _ => (parseElems fuel cs).map (fun p => (Json.arr p.1, p.2))
      else if c = Char.ofNat 123 then
        match skipWs cs with
        | c2 :: r =>
          if c2 = Char.ofNat 125 then some (Json.obj [], r)
          else (parseFields fuel cs).map (fun p => (Json.obj p.1, p.2))
        | [] => none
      else if c = '-' then (parseNumCore cs).map (fun p => (Json.num (-p.1), p.2))
      else if isDigit c then (parseNumCore (c :: cs)).map (fun p => (Json.num p.1, p.2))
      else none

/-- Parse a nonempty comma-separated list of array elements followed by a
closing bracket. -/
def parseElems : Nat → Str → Option (List Json × Str)
  | 0, _ => none
  | fuel + 1, s =>
    match parseValue fuel s with
    | none => none
    | some (v, r) =>
      match skipWs r with
      | ',' :: r2 => (parseElems fuel r2).map (fun p => (v :: p.1, p.2))
      | ']' :: r2 => some ([v], r2)
      | _ => none

/-- Parse a nonempty comma-separated list of object members followed by a
closing brace. -/
def parseFields : Nat → Str → Option (List (Str × Json) × Str)
  | 0, _ => none
  | fuel + 1, s =>
    match skipWs s with
    | '"' :: cs =>
      match parseJStr cs with
      | none => none
      | some (key, r) =>
        match skipWs r with
        | ':' :: r2 =>
          match parseValue fuel r2 with
          | none => none
          | some (v, r3) =>
            match skipWs r3 with
            | ',' :: r4 => (parseFields fuel r4).map (fun p => ((key, v) :: p.1, p.2))
            | c :: r4 => if c = Char.ofNat 125 then some ([(key, v)], r4) else none
            | [] => none
        | _ => none
    | _ => none

end

/-- `JSON.parse`: parse one value and require only trailing whitespace. -/
def jsonParse (s : Str) : Option Json :=
  match parseValue (s.length + 1) s with
  | some (j, rest) => if (skipWs rest).isEmpty then some j else none
  | none => none

/-! ## Process Bridge (`executePrompt`, claude-cli)

The close handler of the single-shot mode: split trimmed standard output
into nonempty lines, fold each line through the record-type dispatch, and
resolve; reject only when the exit code is nonzero and no standard
output was captured. -/

def typeKey : Str := "type".toList

def resultKey : Str := "result".toList

def sessionKey : Str := "session_id".toList

def costKey : Str := "total_cost_usd".toList

def usageKey : Str := "usage".toList

def messageKey : Str := "message".toList

def contentKey : Str := "content".toList

def textKey : Str := "text".toList

def resultTag : Str := "result".toList

def assistantTag : Str := "assistant".toList

def textTag : Str := "text".toList

/-- The normalized response resolved by the Process Bridge.  The
session, cost and usage fields hold whatever JSON value the subprocess
reported (`none` models the JavaScript `undefined`). -/
structure ClaudeResponse where
  result : Str
  session_id : Option Json
  total_cost_usd : Option Json
  usage : Option Json
  is_error : Option Bool

/-- Mutable locals of the parsing loop: the accumulating result text and
the last-seen session id, total cost and usage values. -/
structure ParseAcc where
  result : Str
  sessionId : Option Json
  totalCost : Option Json
  usage : Option Json

/-- The string taken from `parsed.result || ""`: the field's string
content when present and truthy, the empty string otherwise (the
JavaScript string coercion of truthy non-string values is not modelled;
the subprocess reports result texts as strings). -/
def jsStrOrEmpty (o : Option Json) : Str :=
  match o with
  | some (.str s) => s
  | _ => []

/-- The text appended for one content block: `result += block.text` when
the block's type tag is "text" (an absent `text` field coerces to the
literal string "undefined" under `+=`).  A present non-string `text`
value is appended as the empty string here, whereas JavaScript would
append its string coercion (e.g. the number 5 appends "5"); the
subprocess emits text blocks with string `text` fields only. -/
def textBlocks : List Json → Str
  | [] => []
  | b :: bs =>
    (if isStrField (b.getField typeKey) textTag then
      match b.getField textKey with
      | some (.str s) => s
      | some _ => []
      | none => "undefined".toList
     else []) ++ textBlocks bs

/-- Split a string at newline characters (JavaScript `split("\n")`). -/
def splitNl : Str → List Str
  | [] => [[]]
  | c :: cs =>
    if c = '\n' then [] :: splitNl cs
    else
      match splitNl cs with
      | l :: ls => (c :: l) :: ls
      | [] => [[c]]

/-- The nonempty lines of the trimmed standard output:
`stdout.trim().split("\n").filter(Boolean)`. -/
def linesOf (stdout : Str) : List Str :=
  (splitNl (jsTrim stdout)).filter (fun l => !l.isEmpty)

/-- Process one standard-output line: parse it as JSON and dispatch on
the record-type tag ("result" overwrites all four values; "assistant"
with truthy message content concatenates the text blocks; a record with
a truthy top-level `result` field is treated like a "result" record; a
line that fails to parse is appended to the result text verbatim).
A truthy non-array, non-string content value makes the `for...of` loop
throw, which the surrounding catch turns into the raw-line fallback. -/
def foldLine (acc : ParseAcc) (line : Str) : ParseAcc :=
  match jsonParse line with
  | none => { acc with result := acc.result ++ line }
  | some j =>
    if isStrField (j.getField typeKey) resultTag then
      { result := jsStrOrEmpty (j.getField resultKey),
        sessionId := j.getField sessionKey,
        totalCost := j.getField costKey,
        usage := j.getField usageKey }
    else
      let content := (j.getField messageKey).bind (fun m => m.getField contentKey)
      if isStrField (j.getField typeKey) assistantTag && jsTruthyOpt content then
        match content with
        | some (.arr blocks) => { acc with result := acc.result ++ textBlocks blocks }
        | some (.str _) => acc
        | _ => { acc with result := acc.result ++ line }
      else if jsTruthyOpt (j.getField resultKey) then
        { result := jsStrOrEmpty (j.getField resultKey),
          sessionId := j.getField sessionKey,
          totalCost := j.getField costKey,
          usage := j.getField usageKey }
      else acc

/-- The parsing block of the close handler (the `try` body): fold all
lines and resolve with `result || stdout` and the captured metadata. -/
def parseStdout (stdout : Str) : ClaudeResponse :=
  let acc := (linesOf stdout).foldl foldLine ⟨[], none, none, none⟩
  { result := if acc.result.isEmpty then stdout else acc.result,
    session_id := acc.sessionId,
    total_cost_usd := acc.totalCost,
    usage := acc.usage,
    is_error := none }

/-- The generic failure message for a silent nonzero exit. -/
def exitMsg (code : Int) : Str :=
  "Claude CLI exited with code ".toList ++ (toString code).toList

/-- The close handler of `executePrompt`: reject when the exit code is
nonzero and no standard output was captured (with the captured standard
error, or the generic message when that is empty too); otherwise parse
standard output and resolve. -/
def onClose (code : Int) (stdout stderr : Str) : Except Str ClaudeResponse :=
  if code ≠ 0 ∧ stdout = [] then
    .error (if stderr.isEmpty then exitMsg code else stderr)
  else
    .ok (parseStdout stdout)

/-! ## Binary discovery (`getClaudePath`, claude-cli)

The filesystem and shell are modelled as oracles: `ex p` states that
`fs.promises.access(p, X_OK)` succeeds, and `whichOut` is the standard
output of `which claude` (`none` when the command fails). -/

/-- The fixed ordered list of common installation locations
(`path.flatten` of the home directory is modelled as plain concatenation
with a separator). -/
def commonPaths (home : Str) : List Str :=
  ["/opt/homebrew/bin/claude".toList,
   "/usr/local/bin/claude".toList,
   home ++ "/.npm-global/bin/claude".toList]

/-- First element of a path list that exists and is executable. -/
def firstExecutable (ex : Str → Bool) : List Str → Option Str
  | [] => none
  | p :: ps => if ex p then some p else firstExecutable ex ps

/-- `getClaudePath`: the user-configured path when set and executable,
else the first executable common installation path, else the trimmed
output of `which claude` when nonempty, else null.  No step throws: every
probe failure falls through to the next step. -/
def getClaudePath (pref : Str) (ex : Str → Bool) (home : Str)
    (whichOut : Option Str) : Option Str :=
  if !pref.isEmpty && ex pref then some pref
  else
    match firstExecutable ex (commonPaths home) with
    | some p => some p
    | none =>
      match whichOut with
      | some out => if (jsTrim out).isEmpty then none else some (jsTrim out)
      | none => none

/-! ## Event model of the single-shot subprocess lifecycle

`executePrompt` wires five event sources on the spawned child: stdout
data, stderr data, the 120-second watchdog timer, the close event and
the error event.  The promise settles at most once; the watchdog kills
the child and rejects, and close/error clear the watchdog before
settling.  Events are delivered sequentially by the event loop. -/

def timeoutMs : Nat := 120000

def timeoutMsg : Str := "Claude CLI timed out after 2 minutes".toList

inductive BridgeEvent where
  | stdoutData (s : Str) : BridgeEvent
  | stderrData (s : Str) : BridgeEvent
  | timerFire : BridgeEvent
  | closed (code : Int) : BridgeEvent
  | errored (msg : Str) : BridgeEvent

/-- Whether an event is a plain output-data event. -/
def isDataEvent : BridgeEvent → Bool
  | .stdoutData _ => true
  | .stderrData _ => true
  | _ => false

structure BridgeState where
  stdout : Str
  stderr : Str
  settled : Option (Except Str ClaudeResponse)
  timerActive : Bool
  killed : Bool

/-- Settle the promise: a second settlement is a no-op. -/
def settle (st : BridgeState) (r : Except Str ClaudeResponse) : BridgeState :=
  match st.settled with
  | some _ => st
  | none => { st with settled := some r }

/-- One event-loop step of the handlers registered by `executePrompt`. -/
def stepEvent (st : BridgeState) : BridgeEvent → BridgeState
  | .stdoutData s => { st with stdout := st.stdout ++ s }
  | .stderrData s => { st with stderr := st.stderr ++ s }
  | .timerFire =>
    if st.timerActive then
      settle { st with killed := true, timerActive := false } (.error timeoutMsg)
    else st
  | .closed code => settle { st with timerActive := false } (onClose code st.stdout st.stderr)
  | .errored m => settle { st with timerActive := false } (.error m)

def initState : BridgeState := ⟨[], [], none, true, false⟩

def runEvents (evs : List BridgeEvent) : BridgeState :=
  evs.foldl stepEvent initState

/-! ## Usage statistics (`calculateStats`, usage-stats)

`SessionMetadata` is produced by the session-parser module (not among
the given sources); the fields below are the ones `calculateStats` reads
plus the per-session token counts described by the data model. -/

structure SessionMetadata where
  projectName : Str
  cost : ℚ
  lastModified : ℤ
  inputTokens : ℚ
  outputTokens : ℚ

structure UsageStats where
  totalSessions : ℕ
  totalCost : ℚ
  totalInputTokens : ℚ
  totalOutputTokens : ℚ
  sessionsByProject : List (Str × ℕ × ℚ)
  topSessions : List SessionMetadata

/-- Fold one session into the per-project grouping. -/
def addToProject (m : List (Str × ℕ × ℚ)) (s : SessionMetadata) : List (Str × ℕ × ℚ) :=
  match m with
  | [] => [(s.projectName, 1, s.cost)]
  | (k, n, c) :: rest =>
    if k = s.projectName then (k, n + 1, c + s.cost) :: rest
    else (k, n, c) :: addToProject rest s

/-- `calculateStats`: total cost and per-project grouping are
accumulated over the sessions; `totalInputTokens` and
`totalOutputTokens` are the constants 0 (they are declared `const 0` and
never updated); top sessions are the ten most expensive sessions with
positive cost. -/
def calculateStats (sessions : List SessionMetadata) : UsageStats :=
  { totalSessions := sessions.length,
    totalCost := sessions.foldl (fun a s => a + s.cost) 0,
    totalInputTokens := 0,
    totalOutputTokens := 0,
    sessionsByProject := sessions.foldl addToProject [],
    topSessions :=
      ((sessions.filter (fun s => 0 < s.cost)).mergeSort
        (fun a b => b.cost ≤ a.cost)).take 10 }

/-- The period accessors (`getTodayStats`, `getWeekStats`,
`getMonthStats`) all filter the session list by a lower cutoff on the
last-modified time and delegate to `calculateStats`; `getAllTimeStats`
delegates with the unfiltered list. -/
def statsSince (cutoff : ℤ) (sessions : List SessionMetadata) : UsageStats :=
  calculateStats (sessions.filter (fun s => cutoff ≤ s.lastModified))

/-- Whether a Process Bridge outcome is a rejection. -/
def isErr : Except Str ClaudeResponse → Bool
  | .error _ => true
  | .ok _ => false

/-! ## Theorems -/

theorem length_dropWhileLe (p : Char → Bool) (l : Str) :
    (l.dropWhile p).length ≤ l.length := by
  induction l with
  | nil => simp
  | cons c cs ih =>
    by_cases h : p c
    · simp [List.dropWhile_cons, h]
      omega
    · simp [List.dropWhile_cons, h]

theorem matchLit_eq {pat s rest : Str} (h : matchLit pat s = some rest) :
    s = pat ++ rest := by
  induction pat generalizing s with
  | nil => simp [matchLit] at h; simp [h]
  | cons p ps ih =>
    cases s with
    | nil => simp [matchLit] at h
    | cons c cs =>
      by_cases hc : c = p
      · simp [matchLit, hc] at h
        simpa [hc] using congrArg (List.cons p) (ih h)
      · simp [matchLit, hc] at h

theorem matchLit_self (pat rest : Str) : matchLit pat (pat ++ rest) = some rest := by
  induction pat with
  | nil => simp [matchLit]
  | cons p ps ih => simp [matchLit, ih]

theorem findClose_eq {s content rest : Str} (h : findClose s = some (content, rest)) :
    s = content ++ closeTok ++ rest := by
  induction s generalizing content with
  | nil => simp [findClose] at h
  | cons c cs ih =>
    rw [findClose] at h
    cases hm : matchLit closeTok (c :: cs) with
    | some r =>
      rw [hm] at h
      simp at h
      obtain ⟨h1, h2⟩ := h
      subst h1; subst h2
      simpa using matchLit_eq hm
    | none =>
      rw [hm] at h
      cases hf : findClose cs with
      | none => rw [hf] at h; simp at h
      | some p =>
        obtain ⟨content2, rest2⟩ := p
        rw [hf] at h
        simp at h
        obtain ⟨h1, h2⟩ := h
        subst h1; subst h2
        simpa using ih hf

theorem findClose_length {s content rest : Str}
    (h : findClose s = some (content, rest)) :
    rest.length + 7 ≤ s.length := by
  have he := findClose_eq h
  subst he
  simp [closeTok]

theorem matchBlockStart_length {s nm rest : Str}
    (h : matchBlockStart s = some (nm, rest)) :
    rest.length + 5 ≤ s.length := by
  unfold matchBlockStart at h
  cases hm : matchLit litIf s with
  | none => rw [hm] at h; simp at h
  | some r1 =>
    rw [hm] at h
    have hr1 : s = litIf ++ r1 := matchLit_eq hm
    by_cases hsp : (r1.takeWhile isJsSpace).isEmpty
    · simp [hsp] at h
    · simp only [hsp, if_false] at h
      by_cases hnm : ((r1.dropWhile isJsSpace).takeWhile isWordChar).isEmpty
      · simp [hnm] at h
      · simp only [hnm, if_false] at h
        cases hm2 : matchLit rbrb ((r1.dropWhile isJsSpace).dropWhile isWordChar) with
        | none => rw [hm2] at h; simp at h
        | some r3 =>
          rw [hm2] at h
          have hr3 : r3 = rest := by
            simp at h
            exact h.2
          have e2 : (r1.dropWhile isJsSpace).dropWhile isWordChar = rbrb ++ r3 :=
            matchLit_eq hm2
          have l3 : (rbrb ++ r3).length ≤ (r1.dropWhile isJsSpace).length := by
            rw [← e2]; exact length_dropWhileLe _ _
          have l2 : (r1.dropWhile isJsSpace).length ≤ r1.length :=
            length_dropWhileLe _ _
          have l1 : s.length = r1.length + 5 := by simp [hr1, litIf]
          simp [rbrb] at l3
          subst hr3
          omega

theorem expandCondGo_congr (vars : List (Str × Str)) :
    ∀ f1 f2 s, s.length ≤ f1 → s.length ≤ f2 →
      expandCondGo vars f1 s = expandCondGo vars f2 s := by
  intro f1
  induction f1 with
  | zero =>
    intro f2 s h1 _
    have hs : s = [] := by
      cases s with
      | nil => rfl
      | cons c cs => simp at h1
    subst hs
    cases f2 <;> rfl
  | succ f ih =>
    intro f2 s h1 h2
    cases s with
    | nil => cases f2 <;> rfl
    | cons c cs =>
      cases f2 with
      | zero => simp at h2
      | succ g =>
        have hf : cs.length ≤ f := by simp at h1; omega
        have hg : cs.length ≤ g := by simp at h2; omega
        cases hm : matchBlockStart (c :: cs) with
        | none =>
          simp only [expandCondGo, hm]
          rw [ih g cs hf hg]
        | some p =>
          obtain ⟨nm, afterStart⟩ := p
          cases hc : findClose afterStart with
          | none =>
            simp only [expandCondGo, hm, hc]
            rw [ih g cs hf hg]
          | some q =>
            obtain ⟨content, afterClose⟩ := q
            have l1 := matchBlockStart_length hm
            have l2 := findClose_length hc
            have haf : afterClose.length ≤ f := by simp at l1; omega
            have hag : afterClose.length ≤ g := by simp at l1; omega
            simp only [expandCondGo, hm, hc]
            rw [ih g afterClose haf hag]

theorem expandCond_nil (vars : List (Str × Str)) : expandCond vars [] = [] := rfl

theorem expandCond_cons_none (vars : List (Str × Str)) (c : Char) (cs : Str)
    (hm : matchBlockStart (c :: cs) = none) :
    expandCond vars (c :: cs) = c :: expandCond vars cs := by
  show expandCondGo vars (cs.length + 1) (c :: cs) = c :: expandCondGo vars cs.length cs
  simp only [expandCondGo, hm]

theorem expandCond_cons_noclose (vars : List (Str × Str)) (c : Char) (cs nm afterStart : Str)
    (hm : matchBlockStart (c :: cs) = some (nm, afterStart))
    (hc : findClose afterStart = none) :
    expandCond vars (c :: cs) = c :: expandCond vars cs := by
  show expandCondGo vars (cs.length + 1) (c :: cs) = c :: expandCondGo vars cs.length cs
  simp only [expandCondGo, hm, hc]

theorem expandCond_cons_block (vars : List (Str × Str)) (c : Char)
    (cs nm afterStart content afterClose : Str)
    (hm : matchBlockStart (c :: cs) = some (nm, afterStart))
    (hc : findClose afterStart = some (content, afterClose)) :
    expandCond vars (c :: cs) =
      (if condTruthy vars nm then content else []) ++ expandCond vars afterClose := by
  show expandCondGo vars (cs.length + 1) (c :: cs) = _
  simp only [expandCondGo, hm, hc]
  congr 1
  have l1 := matchBlockStart_length hm
  have l2 := findClose_length hc
  exact expandCondGo_congr vars cs.length afterClose.length afterClose
    (by simp at l1; omega) le_rfl

theorem getSubstitution_noDollar (m b a r : Str) (hnd : noDollar r = true) :
    getSubstitution m b a r = r := by
  induction r with
  | nil => rfl
  | cons c rest ih =>
    have hc : ¬(c == '$') = true := by
      have := List.all_eq_true.mp hnd c (by simp)
      simpa using this
    have hc2 : c ≠ '$' := by simpa using hc
    have hrest : noDollar rest = true := by
      unfold noDollar
      exact List.all_eq_true.mpr
        (fun x hx => List.all_eq_true.mp hnd x (by simp [hx]))
    rw [getSubstitution.eq_def]
    simp only [if_neg hc2]
    rw [ih hrest]

theorem replaceAllGo_before (pat repl : Str) (hnd : noDollar repl = true) :
    ∀ fuel b1 b2 s, replaceAllGo pat repl fuel b1 s = replaceAllGo pat repl fuel b2 s := by
  intro fuel
  induction fuel with
  | zero => intro b1 b2 s; rfl
  | succ f ih =>
    intro b1 b2 s
    cases s with
    | nil => rfl
    | cons c cs =>
      cases hm : matchLit pat (c :: cs) with
      | none =>
        simp only [replaceAllGo, hm]
        rw [ih (b1 ++ [c]) (b2 ++ [c]) cs]
      | some rest =>
        cases hp : pat.isEmpty with
        | true =>
          simp only [replaceAllGo, hm, hp, if_true]
          rw [ih (b1 ++ [c]) (b2 ++ [c]) cs]
        | false =>
          simp only [replaceAllGo, hm, hp, Bool.false_eq_true, if_false]
          rw [getSubstitution_noDollar pat b1 rest repl hnd,
            getSubstitution_noDollar pat b2 rest repl hnd,
            ih (b1 ++ pat) (b2 ++ pat) rest]

theorem replaceAllGo_congr (pat repl : Str) :
    ∀ f1 f2 b s, s.length ≤ f1 → s.length ≤ f2 →
      replaceAllGo pat repl f1 b s = replaceAllGo pat repl f2 b s := by
  intro f1
  induction f1 with
  | zero =>
    intro f2 b s h1 _
    have hs : s = [] := by
      cases s with
      | nil => rfl
      | cons c cs => simp at h1
    subst hs
    cases f2 <;> rfl
  | succ f ih =>
    intro f2 b s h1 h2
    cases s with
    | nil => cases f2 <;> rfl
    | cons c cs =>
      cases f2 with
      | zero => simp at h2
      | succ g =>
        have hf : cs.length ≤ f := by simp at h1; omega
        have hg : cs.length ≤ g := by simp at h2; omega
        cases hm : matchLit pat (c :: cs) with
        | none =>
          simp only [replaceAllGo, hm]
          rw [ih g (b ++ [c]) cs hf hg]
        | some rest =>
          cases hp : pat.isEmpty with
          | true =>
            simp only [replaceAllGo, hm, hp, if_true]
            rw [ih g (b ++ [c]) cs hf hg]
          | false =>
            have he := matchLit_eq hm
            have hpl : 1 ≤ pat.length := by
              cases pat with
              | nil => simp [List.isEmpty] at hp
              | cons a b2 => simp
            have hrl : rest.length ≤ cs.length := by
              have : (c :: cs).length = pat.length + rest.length := by
                rw [he]; simp
              simp at this
              omega
            simp only [replaceAllGo, hm, hp, Bool.false_eq_true, if_false]
            rw [ih g (b ++ pat) rest (le_trans hrl hf) (le_trans hrl hg)]

theorem replaceAll_nil (pat repl : Str) : replaceAll pat repl [] = [] := rfl

theorem replaceAll_cons_none (pat repl : Str) (c : Char) (cs : Str)
    (hnd : noDollar repl = true)
    (hm : matchLit pat (c :: cs) = none) :
    replaceAll pat repl (c :: cs) = c :: replaceAll pat repl cs := by
  show replaceAllGo pat repl (cs.length + 1) [] (c :: cs) =
    c :: replaceAllGo pat repl cs.length [] cs
  simp only [replaceAllGo, hm]
  rw [replaceAllGo_before pat repl hnd cs.length ([] ++ [c]) [] cs]

theorem replaceAll_cons_some (pat repl : Str) (c : Char) (cs rest : Str)
    (hm : matchLit pat (c :: cs) = some rest) (hp : pat.isEmpty = false)
    (hnd : noDollar repl = true) :
    replaceAll pat repl (c :: cs) = repl ++ replaceAll pat repl rest := by
  show replaceAllGo pat repl (cs.length + 1) [] (c :: cs) = _
  simp only [replaceAllGo, hm, hp, Bool.false_eq_true, if_false]
  rw [getSubstitution_noDollar pat [] rest repl hnd]
  congr 1
  have he := matchLit_eq hm
  have hpl : 1 ≤ pat.length := by
    cases pat with
    | nil => simp [List.isEmpty] at hp
    | cons a b => simp
  have hrl : rest.length ≤ cs.length := by
    have : (c :: cs).length = pat.length + rest.length := by
      rw [he]; simp
    simp at this
    omega
  rw [replaceAllGo_before pat repl hnd cs.length ([] ++ pat) [] rest]
  exact replaceAllGo_congr pat repl cs.length rest.length [] rest hrl le_rfl

/-! ## Theorems -/

/-- C2: if the subprocess exits with code 0 and its standard output is
exactly the one line
`{"type":"result","result":"hello","session_id":"abc","total_cost_usd":0.01}`,
the Process Bridge resolves with result text "hello", session id "abc"
and total cost 0.01. -/
theorem executePrompt_single_result_line :
    onClose 0
      ("\x7b\"type\":\"result\",\"result\":\"hello\",\"session_id\":\"abc\",\"total_cost_usd\":0.01\x7d".toList)
      [] =
      .ok ⟨"hello".toList, some (.str "abc".toList), some (.num (1 / 100)), none, none⟩ := by
  with_unfolding_all rfl

/-- C4: the single-shot close handler rejects exactly when the exit code
is nonzero and no standard output was captured; the rejection carries the
captured standard error, or the generic exit message when standard error
is empty; in every other case it parses standard output and resolves. -/
theorem executePrompt_reject_iff (code : Int) (out err : Str) :
    (isErr (onClose code out err) = true ↔ code ≠ 0 ∧ out = []) ∧
    (code ≠ 0 ∧ out = [] →
      onClose code out err = .error (if err.isEmpty then exitMsg code else err)) ∧
    (code = 0 ∨ out ≠ [] → onClose code out err = .ok (parseStdout out)) := by
  by_cases h : code ≠ 0 ∧ out = []
  · refine ⟨by simp [onClose, h, isErr], fun _ => by simp [onClose, h], fun hc => ?_⟩
    rcases h with ⟨h1, h2⟩
    rcases hc with hc | hc
    · exact absurd hc h1
    · exact absurd h2 hc
  · refine ⟨by simp [onClose, h, isErr], fun hc => absurd hc h, fun _ => by simp [onClose, h]⟩

theorem executePrompt_reject_iff_witness :
    onClose 2 [] ['b'] = .error (if (['b'] : Str).isEmpty then exitMsg 2 else ['b']) ∧
    onClose 0 [] [] = .ok (parseStdout []) :=
  ⟨(executePrompt_reject_iff 2 [] ['b']).2.1 ⟨by decide, rfl⟩,
   (executePrompt_reject_iff 0 [] []).2.2 (Or.inl rfl)⟩

theorem foldLine_noJson (ls : List Str) (acc : ParseAcc)
    (h : ∀ l ∈ ls, (jsonParse l).isNone = true) :
    ls.foldl foldLine acc = { acc with result := acc.result ++ ls.flatten } := by
  induction ls generalizing acc with
  | nil => simp
  | cons l ls ih =>
    have hl : jsonParse l = none := by
      have := h l (by simp)
      simpa [Option.isNone_iff_eq_none] using this
    have hstep : foldLine acc l = { acc with result := acc.result ++ l } := by
      unfold foldLine
      rw [hl]
    simp only [List.foldl_cons, hstep]
    rw [ih _ (fun x hx => h x (by simp [hx]))]
    simp

theorem join_not_empty (ls : List Str) (h : ∀ l ∈ ls, l.isEmpty = false)
    (hne : ls ≠ []) : (ls.flatten).isEmpty = false := by
  cases ls with
  | nil => exact absurd rfl hne
  | cons l ls =>
    have hl := h l (by simp)
    cases l with
    | nil => simp [List.isEmpty] at hl
    | cons c cs => simp

theorem linesOf_all_nonempty (out : Str) : ∀ l ∈ linesOf out, l.isEmpty = false := by
  intro l hl
  have := List.of_mem_filter hl
  simpa using this

/-- C6 (amended): when the success branch is taken and no line of
standard output parses as JSON, the resolved result text is the
concatenation of the raw non-empty lines when at least one exists; when
the trimmed standard output has no lines at all, the `result || stdout`
fallback resolves with the raw standard output instead. -/
theorem executePrompt_raw_text_fallback (code : Int) (out err : Str)
    (hsucc : code = 0 ∨ out ≠ [])
    (hnj : ∀ l ∈ linesOf out, (jsonParse l).isNone = true) :
    onClose code out err =
      .ok ⟨if linesOf out = [] then out else (linesOf out).flatten,
           none, none, none, none⟩ := by
  have hcond : ¬(code ≠ 0 ∧ out = []) := by
    rcases hsucc with h | h
    · exact fun hc => hc.1 h
    · exact fun hc => h hc.2
  unfold onClose
  rw [if_neg hcond]
  unfold parseStdout
  rw [foldLine_noJson _ _ hnj]
  by_cases hl : linesOf out = []
  · simp [hl]
  · have hne : ((linesOf out).flatten).isEmpty = false :=
      join_not_empty _ (linesOf_all_nonempty out) hl
    simp [hl, hne]

theorem executePrompt_raw_text_fallback_witness :
    onClose 0 ("hello\nworld".toList) [] =
      .ok ⟨if linesOf ("hello\nworld".toList) = [] then "hello\nworld".toList
           else (linesOf ("hello\nworld".toList)).flatten, none, none, none, none⟩ :=
  executePrompt_raw_text_fallback 0 ("hello\nworld".toList) [] (Or.inl rfl) (by decide)

/-- C6 as stated fails on whitespace-only standard output: the success
branch is taken, no line parses as JSON (there are no lines), yet the
resolved result text is the raw standard output " " rather than the
empty concatenation of the (nonexistent) non-empty lines. -/
theorem executePrompt_raw_text_counterexample :
    onClose 0 [' '] [] = .ok ⟨[' '], none, none, none, none⟩ ∧
    linesOf [' '] = [] ∧ (([' '] : Str)) ≠ ((linesOf [' ']).flatten) := by
  refine ⟨rfl, rfl, by decide⟩

/-- C8: a standard-output line whose JSON record carries the type tag
"result" overwrites the accumulated result text, session id, total cost
and usage with exactly that record's fields, regardless of the prior
accumulator state: lines fold in arrival order and later "result"
records win wholesale, with no merging of fields across records. -/
theorem foldLine_result_overwrites (acc : ParseAcc) (line : Str) (j : Json)
    (hp : jsonParse line = some j)
    (ht : isStrField (j.getField typeKey) resultTag = true) :
    foldLine acc line =
      ⟨jsStrOrEmpty (j.getField resultKey), j.getField sessionKey,
       j.getField costKey, j.getField usageKey⟩ ∧
    ∀ prev : List Str, (prev ++ [line]).foldl foldLine acc =
      ⟨jsStrOrEmpty (j.getField resultKey), j.getField sessionKey,
       j.getField costKey, j.getField usageKey⟩ := by
  have h1 : ∀ a : ParseAcc, foldLine a line =
      ⟨jsStrOrEmpty (j.getField resultKey), j.getField sessionKey,
       j.getField costKey, j.getField usageKey⟩ := by
    intro a
    unfold foldLine
    rw [hp]
    simp [ht]
  exact ⟨h1 acc, fun prev => by rw [List.foldl_append]; exact h1 _⟩

theorem foldLine_result_overwrites_witness :
    foldLine ⟨"old".toList, some (.str "s1".toList), some (.bool true), none⟩
        ("\x7b\"type\":\"result\",\"result\":\"second\"\x7d".toList) =
      ⟨"second".toList, none, none, none⟩ :=
  (foldLine_result_overwrites
    ⟨"old".toList, some (.str "s1".toList), some (.bool true), none⟩
    ("\x7b\"type\":\"result\",\"result\":\"second\"\x7d".toList)
    (Json.obj [("type".toList, .str "result".toList),
               ("result".toList, .str "second".toList)])
    rfl rfl).1

theorem firstExecutable_eq_find (ex : Str → Bool) (l : List Str) :
    firstExecutable ex l = l.find? ex := by
  induction l with
  | nil => rfl
  | cons p ps ih =>
    by_cases h : ex p <;> simp [firstExecutable, List.find?_cons, h, ih]

/-- C7: binary discovery returns the user-configured path first when it
is set and executable; otherwise it returns the first of the fixed
ordered common installation paths that is executable; otherwise the
trimmed output of the shell resolution when nonempty; and when every
step fails it returns null (the model is a total function: no step
throws). -/
theorem getClaudePath_search_order (pref home : Str) (ex : Str → Bool)
    (whichOut : Option Str) :
    (pref.isEmpty = false → ex pref = true →
      getClaudePath pref ex home whichOut = some pref) ∧
    (pref.isEmpty = true ∨ ex pref = false →
      getClaudePath pref ex home whichOut =
        (match (commonPaths home).find? ex with
         | some p => some p
         | none =>
           match whichOut with
           | some outp => if (jsTrim outp).isEmpty then none else some (jsTrim outp)
           | none => none)) ∧
    ((pref.isEmpty = true ∨ ex pref = false) →
      (∀ p ∈ commonPaths home, ex p = false) →
      (∀ outp, whichOut = some outp → (jsTrim outp).isEmpty = true) →
      getClaudePath pref ex home whichOut = none) := by
  refine ⟨fun h1 h2 => by simp [getClaudePath, h1, h2], fun h => ?_, fun h hall hw => ?_⟩
  · have hcond : (!pref.isEmpty && ex pref) = false := by
      rcases h with h | h <;> simp [h]
    simp [getClaudePath, hcond, firstExecutable_eq_find]
  · have hcond : (!pref.isEmpty && ex pref) = false := by
      rcases h with h | h <;> simp [h]
    have hfind : firstExecutable ex (commonPaths home) = none := by
      rw [firstExecutable_eq_find]
      exact List.find?_eq_none.mpr (fun p hp => by simp [hall p hp])
    cases hwo : whichOut with
    | none => simp [getClaudePath, hcond, hfind]
    | some outp =>
      have := hw outp hwo
      simp [getClaudePath, hcond, hfind, this]

theorem getClaudePath_search_order_witness :
    getClaudePath [] (fun _ => false) ("/h".toList) none = none :=
  (getClaudePath_search_order [] ("/h".toList) (fun _ => false) none).2.2
    (Or.inl rfl) (by decide) (fun outp h => Option.noConfusion h)

theorem settle_killed (st : BridgeState) (r : Except Str ClaudeResponse) :
    (settle st r).killed = st.killed := by
  unfold settle
  cases st.settled <;> rfl

theorem settle_timerActive (st : BridgeState) (r : Except Str ClaudeResponse) :
    (settle st r).timerActive = st.timerActive := by
  unfold settle
  cases st.settled <;> rfl

theorem settle_settled (st : BridgeState) (r s : Except Str ClaudeResponse)
    (h : st.settled = some s) : (settle st r).settled = some s := by
  unfold settle
  rw [h]
  exact h

theorem settle_of_none (st : BridgeState) (r : Except Str ClaudeResponse)
    (h : st.settled = none) : (settle st r).settled = some r := by
  unfold settle
  rw [h]

theorem settled_persist (evs : List BridgeEvent) (st : BridgeState)
    (r : Except Str ClaudeResponse) (h : st.settled = some r) :
    (evs.foldl stepEvent st).settled = some r := by
  induction evs generalizing st with
  | nil => simpa using h
  | cons e evs ih =>
    apply ih
    cases e with
    | stdoutData s => simpa using h
    | stderrData s => simpa using h
    | timerFire =>
      by_cases ht : st.timerActive
      · simp only [stepEvent, ht, if_true]
        exact settle_settled _ _ _ h
      · simpa [stepEvent, ht] using h
    | closed code => exact settle_settled _ _ _ h
    | errored m => exact settle_settled _ _ _ h

theorem killed_persist (evs : List BridgeEvent) (st : BridgeState)
    (h : st.killed = true) : (evs.foldl stepEvent st).killed = true := by
  induction evs generalizing st with
  | nil => simpa using h
  | cons e evs ih =>
    apply ih
    cases e with
    | stdoutData s => simpa using h
    | stderrData s => simpa using h
    | timerFire =>
      by_cases ht : st.timerActive
      · simp only [stepEvent, ht, if_true]
        rw [settle_killed]
      · simpa [stepEvent, ht] using h
    | closed code => rw [stepEvent, settle_killed]; exact h
    | errored m => rw [stepEvent, settle_killed]; exact h

theorem data_preserve (evs : List BridgeEvent) (st : BridgeState)
    (h : ∀ e ∈ evs, isDataEvent e = true) :
    (evs.foldl stepEvent st).settled = st.settled ∧
    (evs.foldl stepEvent st).timerActive = st.timerActive ∧
    (evs.foldl stepEvent st).killed = st.killed := by
  induction evs generalizing st with
  | nil => exact ⟨rfl, rfl, rfl⟩
  | cons e evs ih =>
    have he := h e (by simp)
    have ht : ∀ x ∈ evs, isDataEvent x = true :=
      fun x hx => h x (List.mem_cons_of_mem _ hx)
    cases e with
    | stdoutData s =>
      have := ih { st with stdout := st.stdout ++ s } ht
      simpa [stepEvent] using this
    | stderrData s =>
      have := ih { st with stderr := st.stderr ++ s } ht
      simpa [stepEvent] using this
    | timerFire => simp [isDataEvent] at he
    | closed code => simp [isDataEvent] at he
    | errored m => simp [isDataEvent] at he

/-- C5: when only output-data events precede it, the watchdog firing
kills the subprocess and rejects with the timeout error, and no later
event (including a subsequent close) changes the settled outcome; the
close and error handlers clear the watchdog first, and a cleared
watchdog event is a no-op; the watchdog duration is the fixed 120
seconds. -/
theorem executePrompt_timeout_watchdog (pre rest : List BridgeEvent)
    (hpre : ∀ e ∈ pre, isDataEvent e = true) :
    (runEvents (pre ++ .timerFire :: rest)).settled = some (.error timeoutMsg) ∧
    (runEvents (pre ++ .timerFire :: rest)).killed = true ∧
    (∀ st code, (stepEvent st (.closed code)).timerActive = false) ∧
    (∀ st m, (stepEvent st (.errored m)).timerActive = false) ∧
    (∀ st, st.timerActive = false → stepEvent st .timerFire = st) ∧
    timeoutMs = 120000 := by
  obtain ⟨hs, ht, _⟩ := data_preserve pre initState hpre
  have hs1 : (pre.foldl stepEvent initState).settled = none := by rw [hs]; rfl
  have ht1 : (pre.foldl stepEvent initState).timerActive = true := by rw [ht]; rfl
  have hstep1 : (stepEvent (pre.foldl stepEvent initState) .timerFire).settled =
      some (.error timeoutMsg) := by
    simp only [stepEvent, ht1, if_true]
    exact settle_of_none _ _ hs1
  have hstep2 : (stepEvent (pre.foldl stepEvent initState) .timerFire).killed = true := by
    simp only [stepEvent, ht1, if_true]
    rw [settle_killed]
  have hrun : runEvents (pre ++ .timerFire :: rest) =
      rest.foldl stepEvent (stepEvent (pre.foldl stepEvent initState) .timerFire) := by
    unfold runEvents
    rw [List.foldl_append]
    rfl
  refine ⟨?_, ?_, ?_, ?_, ?_, rfl⟩
  · rw [hrun]
    exact settled_persist _ _ _ hstep1
  · rw [hrun]
    exact killed_persist _ _ hstep2
  · intro st code
    rw [stepEvent, settle_timerActive]
  · intro st m
    rw [stepEvent, settle_timerActive]
  · intro st h
    simp [stepEvent, h]

theorem executePrompt_timeout_watchdog_witness :
    (runEvents ([BridgeEvent.stdoutData ['x']] ++ .timerFire :: [.closed 0])).settled =
      some (.error timeoutMsg) ∧
    (runEvents ([BridgeEvent.stdoutData ['x']] ++ .timerFire :: [.closed 0])).killed = true ∧
    (∀ st code, (stepEvent st (.closed code)).timerActive = false) ∧
    (∀ st m, (stepEvent st (.errored m)).timerActive = false) ∧
    (∀ st, st.timerActive = false → stepEvent st .timerFire = st) ∧
    timeoutMs = 120000 :=
  executePrompt_timeout_watchdog [.stdoutData ['x']] [.closed 0] (by decide)

/-- C10: the usage-statistics aggregation reports zero total input and
output tokens for every session list (and hence for every time-window
filtered list): token usage is never aggregated. -/
theorem calculateStats_tokens_never_aggregated
    (sessions : List SessionMetadata) (cutoff : ℤ) :
    (calculateStats sessions).totalInputTokens = 0 ∧
    (calculateStats sessions).totalOutputTokens = 0 ∧
    (statsSince cutoff sessions).totalInputTokens = 0 ∧
    (statsSince cutoff sessions).totalOutputTokens = 0 := by
  simp [calculateStats, statsSince]

theorem space_not_word {c : Char} (h : isJsSpace c = true) : isWordChar c = false := by
  simp only [isJsSpace, Bool.or_eq_true, decide_eq_true_eq] at h
  rcases h with ((((h | h) | h) | h) | h) | h <;> subst h <;> decide

theorem word_not_space {c : Char} (h : isWordChar c = true) : isJsSpace c = false := by
  cases hs : isJsSpace c with
  | false => rfl
  | true => rw [space_not_word hs] at h; exact absurd h (by simp)

theorem word_ne_of {c d : Char} (h : isWordChar c = true) (hd : isWordChar d = false) :
    c ≠ d := by
  intro he
  rw [he, hd] at h
  exact absurd h (by simp)

theorem word_ne_lb {c : Char} (h : isWordChar c = true) : c ≠ Char.ofNat 123 :=
  word_ne_of h (by decide)

theorem word_ne_rb {c : Char} (h : isWordChar c = true) : c ≠ Char.ofNat 125 :=
  word_ne_of h (by decide)

theorem word_ne_hash {c : Char} (h : isWordChar c = true) : c ≠ '#' :=
  word_ne_of h (by decide)

theorem takeWhile_append_all (p : Char → Bool) (a b : Str)
    (h : ∀ c ∈ a, p c = true) :
    (a ++ b).takeWhile p = a ++ b.takeWhile p := by
  induction a with
  | nil => simp
  | cons c a ih =>
    have hc := h c (by simp)
    simp only [List.cons_append, List.takeWhile_cons, hc, if_true]
    rw [ih (fun x hx => h x (by simp [hx]))]

theorem dropWhile_append_all (p : Char → Bool) (a b : Str)
    (h : ∀ c ∈ a, p c = true) :
    (a ++ b).dropWhile p = b.dropWhile p := by
  induction a with
  | nil => simp
  | cons c a ih =>
    have hc := h c (by simp)
    simp only [List.cons_append, List.dropWhile_cons, hc, if_true]
    exact ih (fun x hx => h x (by simp [hx]))

theorem takeWhile_head_false (p : Char → Bool) (c : Char) (z : Str)
    (h : p c = false) : (c :: z).takeWhile p = [] := by
  simp [List.takeWhile_cons, h]

theorem dropWhile_head_false (p : Char → Bool) (c : Char) (z : Str)
    (h : p c = false) : (c :: z).dropWhile p = c :: z := by
  simp [List.dropWhile_cons, h]

theorem matchLit_head_ne {p c : Char} (pt z : Str) (h : c ≠ p) :
    matchLit (p :: pt) (c :: z) = none := by
  simp [matchLit, h]

theorem matchBlockStart_head_ne {c : Char} (s : Str) (h : c ≠ Char.ofNat 123) :
    matchBlockStart (c :: s) = none := by
  unfold matchBlockStart
  rw [show litIf = Char.ofNat 123 :: [Char.ofNat 123, '#', 'i', 'f'] from rfl,
    matchLit_head_ne _ _ h]

theorem matchBlockStart_lb_ne {c : Char} (s : Str) (h : c ≠ Char.ofNat 123) :
    matchBlockStart (Char.ofNat 123 :: c :: s) = none := by
  unfold matchBlockStart
  have hml : matchLit litIf (Char.ofNat 123 :: c :: s) = none := by
    show (if Char.ofNat 123 = Char.ofNat 123 then
      matchLit [Char.ofNat 123, '#', 'i', 'f'] (c :: s) else none) = none
    rw [if_pos rfl, matchLit_head_ne _ _ h]
  rw [hml]

theorem matchBlockStart_hash_ne {c : Char} (s : Str) (h : c ≠ '#') :
    matchBlockStart (Char.ofNat 123 :: Char.ofNat 123 :: c :: s) = none := by
  unfold matchBlockStart
  have hml : matchLit litIf (Char.ofNat 123 :: Char.ofNat 123 :: c :: s) = none := by
    show (if Char.ofNat 123 = Char.ofNat 123 then
      matchLit [Char.ofNat 123, '#', 'i', 'f'] (Char.ofNat 123 :: c :: s) else none) = none
    rw [if_pos rfl]
    show (if Char.ofNat 123 = Char.ofNat 123 then
      matchLit ['#', 'i', 'f'] (c :: s) else none) = none
    rw [if_pos rfl, matchLit_head_ne _ _ h]
  rw [hml]

theorem expandCond_append_nolb (vars : List (Str × Str)) (a b : Str)
    (h : ∀ c ∈ a, c ≠ Char.ofNat 123) :
    expandCond vars (a ++ b) = a ++ expandCond vars b := by
  induction a with
  | nil => simp
  | cons c a ih =>
    have hc := h c (by simp)
    rw [List.cons_append, expandCond_cons_none vars c (a ++ b) (matchBlockStart_head_ne _ hc),
      ih (fun x hx => h x (by simp [hx])), ← List.cons_append]

theorem matchBlockStart_build (sp nm rest : Str)
    (hsp : sp ≠ []) (hsps : ∀ c ∈ sp, isJsSpace c = true)
    (hnm : nm ≠ []) (hnmw : ∀ c ∈ nm, isWordChar c = true) :
    matchBlockStart (litIf ++ (sp ++ (nm ++ (rbrb ++ rest)))) = some (nm, rest) := by
  obtain ⟨n0, nm', hnmc⟩ : ∃ n0 nm', nm = n0 :: nm' := by
    cases nm with
    | nil => exact absurd rfl hnm
    | cons a b => exact ⟨a, b, rfl⟩
  have hn0 := hnmw n0 (by rw [hnmc]; simp)
  have h3t : (nm ++ (rbrb ++ rest)).takeWhile isJsSpace = [] := by
    rw [hnmc, List.cons_append]
    exact takeWhile_head_false _ _ _ (word_not_space hn0)
  have h3d : (nm ++ (rbrb ++ rest)).dropWhile isJsSpace = nm ++ (rbrb ++ rest) := by
    rw [hnmc, List.cons_append]
    exact dropWhile_head_false _ _ _ (word_not_space hn0)
  have h4t : (rbrb ++ rest).takeWhile isWordChar = [] := by
    show (Char.ofNat 125 :: (Char.ofNat 125 :: rest)).takeWhile isWordChar = []
    exact takeWhile_head_false _ _ _ (by decide)
  have h4d : (rbrb ++ rest).dropWhile isWordChar = rbrb ++ rest := by
    show (Char.ofNat 125 :: (Char.ofNat 125 :: rest)).dropWhile isWordChar = _
    exact dropWhile_head_false _ _ _ (by decide)
  have htk : (sp ++ (nm ++ (rbrb ++ rest))).takeWhile isJsSpace = sp := by
    rw [takeWhile_append_all _ _ _ hsps, h3t, List.append_nil]
  have hdr : (sp ++ (nm ++ (rbrb ++ rest))).dropWhile isJsSpace = nm ++ (rbrb ++ rest) := by
    rw [dropWhile_append_all _ _ _ hsps, h3d]
  have htk2 : (nm ++ (rbrb ++ rest)).takeWhile isWordChar = nm := by
    rw [takeWhile_append_all _ _ _ hnmw, h4t, List.append_nil]
  have hdr2 : (nm ++ (rbrb ++ rest)).dropWhile isWordChar = rbrb ++ rest := by
    rw [dropWhile_append_all _ _ _ hnmw, h4d]
  have hspne : sp.isEmpty = false := by
    cases sp with
    | nil => exact absurd rfl hsp
    | cons a b => rfl
  have hnmne : nm.isEmpty = false := by
    rw [hnmc]; rfl
  unfold matchBlockStart
  rw [matchLit_self]
  simp only [htk, hdr, htk2, hdr2, hspne, hnmne, Bool.false_eq_true, if_false]
  rw [show rbrb ++ rest = rbrb ++ rest from rfl, matchLit_self]

theorem findClose_head (s r : Str) (h : matchLit closeTok s = some r) :
    findClose s = some ([], r) := by
  cases s with
  | nil => simp [closeTok, matchLit] at h
  | cons c cs =>
    rw [findClose, h]

theorem findClose_build (content rest : Str)
    (hnc : ∀ n, n < content.length →
      matchLit closeTok (content.drop n ++ (closeTok ++ rest)) = none) :
    findClose (content ++ (closeTok ++ rest)) = some (content, rest) := by
  induction content with
  | nil =>
    refine findClose_head _ _ ?_
    simpa using matchLit_self closeTok rest
  | cons c cs ih =>
    have h0 : matchLit closeTok ((c :: cs) ++ (closeTok ++ rest)) = none := by
      have := hnc 0 (by simp)
      simpa using this
    have hrec := ih (fun n hn => by
      have := hnc (n + 1) (by simp; omega)
      simpa using this)
    rw [List.cons_append, findClose]
    rw [show matchLit closeTok (c :: (cs ++ (closeTok ++ rest))) = none from h0, hrec]

theorem expandCond_block (vars : List (Str × Str)) (sp nm content post : Str)
    (hsp : sp ≠ []) (hsps : ∀ c ∈ sp, isJsSpace c = true)
    (hnm : nm ≠ []) (hnmw : ∀ c ∈ nm, isWordChar c = true)
    (hnc : ∀ n, n < content.length →
      matchLit closeTok (content.drop n ++ (closeTok ++ post)) = none) :
    expandCond vars (litIf ++ (sp ++ (nm ++ (rbrb ++ (content ++ (closeTok ++ post)))))) =
      (if condTruthy vars nm then content else []) ++ expandCond vars post := by
  have hm : matchBlockStart (litIf ++ (sp ++ (nm ++ (rbrb ++ (content ++ (closeTok ++ post)))))) =
      some (nm, content ++ (closeTok ++ post)) :=
    matchBlockStart_build sp nm (content ++ (closeTok ++ post)) hsp hsps hnm hnmw
  have hc : findClose (content ++ (closeTok ++ post)) = some (content, post) :=
    findClose_build content post hnc
  show expandCond vars (Char.ofNat 123 :: (Char.ofNat 123 :: '#' :: 'i' :: 'f' ::
      (sp ++ (nm ++ (rbrb ++ (content ++ (closeTok ++ post))))))) = _
  exact expandCond_cons_block vars _ _ nm (content ++ (closeTok ++ post)) content post hm hc

/-- C1: `substituteVariables` expands a conditional span
`{{#if nm}}content{{/if}}` by keeping the content exactly when the
variable's value is present and nonempty after trimming (the span's
delimiters never survive), dropping the whole span otherwise; the span
ends at the first block-end marker (the content carries none), whatever
follows; and the kept content undergoes Step-2 placeholder substitution
together with the rest of the expanded text. -/
theorem substituteVariables_conditional (vars : List (Str × Str))
    (pre sp nm content post : Str)
    (hpre : ∀ c ∈ pre, c ≠ Char.ofNat 123)
    (hsp : sp ≠ []) (hsps : ∀ c ∈ sp, isJsSpace c = true)
    (hnm : nm ≠ []) (hnmw : ∀ c ∈ nm, isWordChar c = true)
    (hnc : ∀ n, n < content.length →
      matchLit closeTok (content.drop n ++ (closeTok ++ post)) = none) :
    substituteVariables
        (pre ++ (litIf ++ (sp ++ (nm ++ (rbrb ++ (content ++ (closeTok ++ post)))))))
        vars =
      substituteStep2 vars
        (pre ++ ((if condTruthy vars nm then content else []) ++ expandCond vars post)) ∧
    (condTruthy vars nm = true ↔
      ∃ v, lookupVar vars nm = some v ∧ (jsTrim v).isEmpty = false) := by
  constructor
  · unfold substituteVariables
    congr 1
    rw [expandCond_append_nolb vars pre _ hpre,
      expandCond_block vars sp nm content post hsp hsps hnm hnmw hnc]
  · unfold condTruthy
    cases hl : lookupVar vars nm with
    | none => simp
    | some v =>
      simp only [hl]
      constructor
      · intro h
        refine ⟨v, rfl, ?_⟩
        simp at h
        cases hjt : jsTrim v with
        | nil => exact absurd hjt h.2
        | cons a b => rfl
      · rintro ⟨w, hw, hts⟩
        have hvw : v = w := Option.some.inj hw
        subst hvw
        have hvne : v.isEmpty = false := by
          cases v with
          | nil => simp [jsTrim] at hts
          | cons a b => rfl
        simp [hvne, hts]

theorem substituteVariables_conditional_witness :
    (substituteVariables
        ("A ".toList ++ (litIf ++ ([' '] ++ ("x".toList ++ (rbrb ++ ("yes".toList ++
          (closeTok ++ "B".toList))))))) [("x".toList, "1".toList)] =
      substituteStep2 [("x".toList, "1".toList)]
        ("A ".toList ++
          ((if condTruthy [("x".toList, "1".toList)] "x".toList then "yes".toList else []) ++
            expandCond [("x".toList, "1".toList)] "B".toList))) ∧
    (condTruthy [("x".toList, "1".toList)] "x".toList = true ↔
      ∃ v, lookupVar [("x".toList, "1".toList)] "x".toList = some v ∧
        (jsTrim v).isEmpty = false) :=
  substituteVariables_conditional [("x".toList, "1".toList)]
    ("A ".toList) [' '] ("x".toList) ("yes".toList) ("B".toList)
    (by decide) (by decide) (by decide) (by decide) (by decide) (by decide)

theorem word_ne_slash {c : Char} (h : isWordChar c = true) : c ≠ '/' :=
  word_ne_of h (by decide)

theorem noBrace_ne_lb {s : Str} (h : noBrace s = true) :
    ∀ c ∈ s, c ≠ Char.ofNat 123 := by
  intro c hc
  have h2 := List.all_eq_true.mp h c hc
  simp at h2
  exact h2.1

theorem wordName_parts {u : Str} (h : wordName u = true) :
    u ≠ [] ∧ ∀ c ∈ u, isWordChar c = true := by
  unfold wordName at h
  rw [Bool.and_eq_true] at h
  constructor
  · intro he
    rw [he] at h
    simp at h
  · exact List.all_eq_true.mp h.2

theorem wordName_cons {u : Str} (h : wordName u = true) :
    ∃ u0 u2, u = u0 :: u2 ∧ isWordChar u0 = true := by
  obtain ⟨hne, hall⟩ := wordName_parts h
  cases u with
  | nil => exact absurd rfl hne
  | cons a b => exact ⟨a, b, rfl, hall a (by simp)⟩

theorem flattenPieces_cons (p : Piece) (ps : List Piece) :
    flattenPieces (p :: ps) = flattenPiece p ++ flattenPieces ps := by
  simp [flattenPieces]

theorem flatten_cons (sg : Seg) (t : List Seg) :
    flatten (sg :: t) = flattenSeg sg ++ flatten t := by
  simp [flatten]

theorem replaceAll_append_nolb (pt repl : Str) (a b : Str)
    (hnd : noDollar repl = true)
    (h : ∀ c ∈ a, c ≠ Char.ofNat 123) :
    replaceAll (Char.ofNat 123 :: pt) repl (a ++ b) =
      a ++ replaceAll (Char.ofNat 123 :: pt) repl b := by
  induction a with
  | nil => simp
  | cons c a ih =>
    have hc := h c (by simp)
    rw [List.cons_append,
      replaceAll_cons_none _ repl c (a ++ b) hnd (matchLit_head_ne _ _ hc),
      ih (fun x hx => h x (by simp [hx])), ← List.cons_append]

theorem append_rb_inj : ∀ (u d z1 z2 : Str),
    (∀ c ∈ u, isWordChar c = true) → (∀ c ∈ d, isWordChar c = true) →
    u ++ Char.ofNat 125 :: z1 = d ++ Char.ofNat 125 :: z2 → u = d := by
  intro u
  induction u with
  | nil =>
    intro d z1 z2 _ hd h
    cases d with
    | nil => rfl
    | cons e d2 =>
      simp only [List.nil_append, List.cons_append, List.cons.injEq] at h
      exact absurd h.1.symm (word_ne_rb (hd e (by simp)))
  | cons c u2 ih =>
    intro d z1 z2 hu hd h
    cases d with
    | nil =>
      simp only [List.cons_append, List.nil_append, List.cons.injEq] at h
      exact absurd h.1 (word_ne_rb (hu c (by simp)))
    | cons e d2 =>
      simp only [List.cons_append, List.cons.injEq] at h
      rw [h.1, ih d2 z1 z2 (fun x hx => hu x (by simp [hx]))
        (fun x hx => hd x (by simp [hx])) h.2]

theorem matchLit_tok_ne (u d rest : Str) (hu : wordName u = true)
    (hd : wordName d = true) (hne : u ≠ d) :
    matchLit (placeholderTok d) (placeholderTok u ++ rest) = none := by
  cases hm : matchLit (placeholderTok d) (placeholderTok u ++ rest) with
  | none => rfl
  | some r =>
    exfalso
    have he := matchLit_eq hm
    have h2 : u ++ Char.ofNat 125 :: (Char.ofNat 125 :: rest) =
        d ++ Char.ofNat 125 :: (Char.ofNat 125 :: r) := by
      have h3 : Char.ofNat 123 :: (Char.ofNat 123 ::
            (u ++ (Char.ofNat 125 :: Char.ofNat 125 :: rest))) =
          Char.ofNat 123 :: (Char.ofNat 123 ::
            (d ++ (Char.ofNat 125 :: Char.ofNat 125 :: r))) := by
        simpa [placeholderTok, List.append_assoc] using he
      simpa using h3
    exact hne (append_rb_inj u d _ _ (wordName_parts hu).2 (wordName_parts hd).2 h2)

theorem matchLit_lblb_ne (pt : Str) {c : Char} (z : Str) (h : c ≠ Char.ofNat 123) :
    matchLit (Char.ofNat 123 :: Char.ofNat 123 :: pt) (Char.ofNat 123 :: c :: z) = none := by
  show (if Char.ofNat 123 = Char.ofNat 123 then
    matchLit (Char.ofNat 123 :: pt) (c :: z) else none) = none
  rw [if_pos rfl, matchLit_head_ne _ _ h]

theorem replaceAll_tok_other (d repl u b : Str) (hnd : noDollar repl = true)
    (hu : wordName u = true)
    (hd : wordName d = true) (hne : u ≠ d) :
    replaceAll (placeholderTok d) repl (placeholderTok u ++ b) =
      placeholderTok u ++ replaceAll (placeholderTok d) repl b := by
  obtain ⟨u0, u2, huc, hu0⟩ := wordName_cons hu
  have e1 : placeholderTok u ++ b = Char.ofNat 123 :: (Char.ofNat 123 ::
      (u ++ (Char.ofNat 125 :: Char.ofNat 125 :: b))) := by
    simp [placeholderTok, List.append_assoc]
  have h0 : matchLit (placeholderTok d) (Char.ofNat 123 :: (Char.ofNat 123 ::
      (u ++ (Char.ofNat 125 :: Char.ofNat 125 :: b)))) = none := by
    rw [← e1]
    exact matchLit_tok_ne u d b hu hd hne
  have h1 : matchLit (placeholderTok d) (Char.ofNat 123 ::
      (u ++ (Char.ofNat 125 :: Char.ofNat 125 :: b))) = none := by
    rw [huc, List.cons_append]
    show matchLit (Char.ofNat 123 :: Char.ofNat 123 :: (d ++ rbrb))
      (Char.ofNat 123 :: u0 :: (u2 ++ (Char.ofNat 125 :: Char.ofNat 125 :: b))) = none
    exact matchLit_lblb_ne _ _ (word_ne_lb hu0)
  rw [e1, replaceAll_cons_none _ repl _ _ hnd h0, replaceAll_cons_none _ repl _ _ hnd h1]
  have h2 : replaceAll (placeholderTok d) repl
        (u ++ (Char.ofNat 125 :: Char.ofNat 125 :: b)) =
      u ++ (Char.ofNat 125 :: Char.ofNat 125 :: replaceAll (placeholderTok d) repl b) := by
    have h3 : ∀ c ∈ u ++ [Char.ofNat 125, Char.ofNat 125], c ≠ Char.ofNat 123 := by
      intro c hc
      rcases List.mem_append.mp hc with hc | hc
      · exact word_ne_lb ((wordName_parts hu).2 c hc)
      · simp at hc
        rw [hc]; decide
    have h4 := replaceAll_append_nolb (Char.ofNat 123 :: (d ++ rbrb)) repl
      (u ++ [Char.ofNat 125, Char.ofNat 125]) b hnd h3
    simpa [List.append_assoc] using h4
  rw [h2]
  simp [placeholderTok, List.append_assoc]

theorem replaceAll_tok_self (d repl b : Str) (hnd : noDollar repl = true) :
    replaceAll (placeholderTok d) repl (placeholderTok d ++ b) =
      repl ++ replaceAll (placeholderTok d) repl b := by
  have hm := matchLit_self (placeholderTok d) b
  have e1 : placeholderTok d ++ b = Char.ofNat 123 :: (Char.ofNat 123 ::
      (d ++ (Char.ofNat 125 :: Char.ofNat 125 :: b))) := by
    simp [placeholderTok, List.append_assoc]
  rw [e1] at hm
  rw [e1]
  exact replaceAll_cons_some (placeholderTok d) repl (Char.ofNat 123)
    (Char.ofNat 123 :: (d ++ (Char.ofNat 125 :: Char.ofNat 125 :: b))) b hm rfl hnd

theorem replaceAll_pieces (d v : Str) (ps : List Piece)
    (hnd : noDollar v = true)
    (hd : wordName d = true) (hwf : ∀ p ∈ ps, pieceWF p = true) :
    replaceAll (placeholderTok d) v (flattenPieces ps) =
      flattenPieces (ps.map (fun p => match p with
        | .lit s => Piece.lit s
        | .tok u => if u = d then Piece.lit v else Piece.tok u)) := by
  induction ps with
  | nil => rfl
  | cons p ps ih =>
    have hp := hwf p (by simp)
    have hrest : ∀ x ∈ ps, pieceWF x = true :=
      fun x hx => hwf x (List.mem_cons_of_mem _ hx)
    rw [flattenPieces_cons, List.map_cons, flattenPieces_cons]
    cases p with
    | lit s =>
      have hnb : ∀ c ∈ s, c ≠ Char.ofNat 123 := noBrace_ne_lb hp
      show replaceAll (placeholderTok d) v (s ++ flattenPieces ps) = s ++ _
      have := replaceAll_append_nolb (Char.ofNat 123 :: (d ++ rbrb)) v s
        (flattenPieces ps) hnd hnb
      rw [show (Char.ofNat 123 :: (Char.ofNat 123 :: (d ++ rbrb)) : Str) =
        placeholderTok d from rfl] at this
      rw [this, ih hrest]
    | tok u =>
      by_cases he : u = d
      · subst he
        show replaceAll (placeholderTok u) v (placeholderTok u ++ flattenPieces ps) = _
        rw [replaceAll_tok_self _ _ _ hnd, ih hrest]
        simp [flattenPiece]
      · show replaceAll (placeholderTok d) v (placeholderTok u ++ flattenPieces ps) = _
        rw [replaceAll_tok_other d v u _ hnd hp hd he, ih hrest]
        simp [flattenPiece, he]

theorem substituteStep2_pieces (vars : List (Str × Str)) (ps : List Piece)
    (hv : ∀ kv ∈ vars, wordName kv.1 = true ∧ noBrace kv.2 = true ∧ noDollar kv.2 = true)
    (hwf : ∀ p ∈ ps, pieceWF p = true) :
    substituteStep2 vars (flattenPieces ps) =
      flattenPieces (ps.map (substPiece vars)) := by
  induction vars generalizing ps with
  | nil =>
    show flattenPieces ps = _
    have hmap : ps.map (substPiece []) = ps := by
      have h1 : ps.map (substPiece []) = ps.map id :=
        List.map_congr_left (fun p _ => by cases p <;> simp [substPiece, lookupVar])
      rw [h1, List.map_id]
    rw [hmap]
  | cons kv vars ih =>
    obtain ⟨d, v⟩ := kv
    have hdv := hv (d, v) (by simp)
    have hvrest : ∀ kv2 ∈ vars,
        wordName kv2.1 = true ∧ noBrace kv2.2 = true ∧ noDollar kv2.2 = true :=
      fun kv2 h2 => hv kv2 (by simp [h2])
    show substituteStep2 vars (replaceAll (placeholderTok d) v (flattenPieces ps)) = _
    rw [replaceAll_pieces d v ps hdv.2.2 hdv.1 hwf]
    have hwf2 : ∀ p ∈ ps.map (fun p => match p with
        | .lit s => Piece.lit s
        | .tok u => if u = d then Piece.lit v else Piece.tok u), pieceWF p = true := by
      intro p hp
      rcases List.mem_map.mp hp with ⟨q, hq, he⟩
      cases q with
      | lit s => rw [← he]; exact hwf _ hq
      | tok u =>
        by_cases hud : u = d
        · rw [← he]
          simp only [hud, if_pos rfl]
          exact hdv.2.1
        · rw [← he]
          simp only [hud, if_neg hud]
          exact hwf _ hq
    rw [ih _ hvrest hwf2]
    congr 1
    rw [List.map_map]
    apply List.map_congr_left
    intro p _
    cases p with
    | lit s => simp [substPiece, Function.comp]
    | tok u =>
      by_cases he : u = d
      · subst he
        simp [substPiece, Function.comp, lookupVar]
      · have hne : ¬(d = u) := fun h2 => he h2.symm
        simp [substPiece, Function.comp, lookupVar, he, hne]

theorem matchBlockStart_tok (u b : Str) (hu : wordName u = true) :
    matchBlockStart (placeholderTok u ++ b) = none := by
  obtain ⟨u0, u2, huc, hu0⟩ := wordName_cons hu
  have e1 : placeholderTok u ++ b = Char.ofNat 123 :: Char.ofNat 123 ::
      (u0 :: (u2 ++ (Char.ofNat 125 :: Char.ofNat 125 :: b))) := by
    simp [placeholderTok, huc, List.append_assoc]
  rw [e1]
  exact matchBlockStart_hash_ne _ (word_ne_hash hu0)

theorem expandCond_tok (vars : List (Str × Str)) (u b : Str)
    (hu : wordName u = true) :
    expandCond vars (placeholderTok u ++ b) =
      placeholderTok u ++ expandCond vars b := by
  obtain ⟨u0, u2, huc, hu0⟩ := wordName_cons hu
  have e1 : placeholderTok u ++ b = Char.ofNat 123 :: (Char.ofNat 123 ::
      (u ++ (Char.ofNat 125 :: Char.ofNat 125 :: b))) := by
    simp [placeholderTok, List.append_assoc]
  have h0 : matchBlockStart (Char.ofNat 123 :: (Char.ofNat 123 ::
      (u ++ (Char.ofNat 125 :: Char.ofNat 125 :: b)))) = none := by
    rw [← e1]
    exact matchBlockStart_tok u b hu
  have h1 : matchBlockStart (Char.ofNat 123 ::
      (u ++ (Char.ofNat 125 :: Char.ofNat 125 :: b))) = none := by
    rw [huc, List.cons_append]
    exact matchBlockStart_lb_ne _ (word_ne_lb hu0)
  rw [e1, expandCond_cons_none _ _ _ h0, expandCond_cons_none _ _ _ h1]
  have h2 : expandCond vars (u ++ (Char.ofNat 125 :: Char.ofNat 125 :: b)) =
      u ++ (Char.ofNat 125 :: Char.ofNat 125 :: expandCond vars b) := by
    have h3 : ∀ c ∈ u ++ [Char.ofNat 125, Char.ofNat 125], c ≠ Char.ofNat 123 := by
      intro c hc
      rcases List.mem_append.mp hc with hc | hc
      · exact word_ne_lb ((wordName_parts hu).2 c hc)
      · simp at hc
        rw [hc]; decide
    have h4 := expandCond_append_nolb vars (u ++ [Char.ofNat 125, Char.ofNat 125]) b h3
    simpa [List.append_assoc] using h4
  rw [h2]
  simp [placeholderTok, List.append_assoc]

theorem expandCond_pieces (vars : List (Str × Str)) (ps : List Piece)
    (hwf : ∀ p ∈ ps, pieceWF p = true) :
    expandCond vars (flattenPieces ps) = flattenPieces ps := by
  induction ps with
  | nil => rfl
  | cons p ps ih =>
    have hp := hwf p (by simp)
    have hrest : ∀ x ∈ ps, pieceWF x = true :=
      fun x hx => hwf x (List.mem_cons_of_mem _ hx)
    rw [flattenPieces_cons]
    cases p with
    | lit s =>
      show expandCond vars (s ++ flattenPieces ps) = s ++ flattenPieces ps
      rw [expandCond_append_nolb vars s _ (noBrace_ne_lb hp), ih hrest]
    | tok u =>
      show expandCond vars (placeholderTok u ++ flattenPieces ps) = _
      rw [expandCond_tok vars u _ hp, ih hrest]
      rfl

/-- C3 as stated fails: Step 2 iterates only over the entries present in
the value map, so a declared variable whose key is absent has its
placeholder left verbatim in the output rather than replaced by the
empty string. -/
theorem substituteVariables_absent_key_left :
    substituteVariables (placeholderTok ("name".toList)) [] =
      placeholderTok ("name".toList) ∧
    placeholderTok ("name".toList) ≠ [] :=
  ⟨rfl, by decide⟩

/-- C3 (amended): Step 2 replaces, for every variable present in the
value map whose value is free of the dollar character, every occurrence
of its placeholder token with that entry's value verbatim (first entry
wins for duplicate keys); the placeholder of a name absent from the map
is left in place.  A value containing dollar-escape patterns is not
substituted verbatim: JavaScript applies GetSubstitution to the
replacement string, so the value `$&` reinserts the placeholder token
itself and `$$` becomes a single dollar sign (second and third
conjuncts).  Stated over bodies that are alternations of brace-free
literal runs and placeholder tokens with word-character names (the
single-pass replacement of general bodies can splice new tokens). -/
theorem substituteVariables_step2_map (vars : List (Str × Str)) (ps : List Piece)
    (hv : ∀ kv ∈ vars, wordName kv.1 = true ∧ noBrace kv.2 = true ∧ noDollar kv.2 = true)
    (hwf : ∀ p ∈ ps, pieceWF p = true) :
    (substituteVariables (flattenPieces ps) vars =
      flattenPieces (ps.map (substPiece vars))) ∧
    (substituteStep2 [("x".toList, ['$', '&'])] (placeholderTok ("x".toList)) =
      placeholderTok ("x".toList)) ∧
    (substituteStep2 [("x".toList, ['$', '$'])] (placeholderTok ("x".toList)) =
      ['$']) := by
  refine ⟨?_, rfl, rfl⟩
  unfold substituteVariables
  rw [expandCond_pieces vars ps hwf]
  exact substituteStep2_pieces vars ps hv hwf

theorem substituteVariables_step2_map_witness :
    (substituteVariables
        (flattenPieces [Piece.lit ("a ".toList), Piece.tok ("x".toList),
          Piece.tok ("y".toList)])
        [("x".toList, "V".toList)] =
      flattenPieces ([Piece.lit ("a ".toList), Piece.tok ("x".toList),
          Piece.tok ("y".toList)].map (substPiece [("x".toList, "V".toList)]))) ∧
    (substituteStep2 [("x".toList, ['$', '&'])] (placeholderTok ("x".toList)) =
      placeholderTok ("x".toList)) ∧
    (substituteStep2 [("x".toList, ['$', '$'])] (placeholderTok ("x".toList)) =
      ['$']) :=
  substituteVariables_step2_map [("x".toList, "V".toList)]
    [Piece.lit ("a ".toList), Piece.tok ("x".toList), Piece.tok ("y".toList)]
    (by decide) (by decide)

theorem lookupVar_empty_values (vars : List (Str × Str)) (nm v : Str)
    (hv : ∀ kv ∈ vars, kv.2 = []) (h : lookupVar vars nm = some v) : v = [] := by
  induction vars with
  | nil => simp [lookupVar] at h
  | cons kv rest ih =>
    obtain ⟨k, w⟩ := kv
    by_cases hk : k = nm
    · simp [lookupVar, hk] at h
      rw [← h]
      exact hv (k, w) (by simp)
    · simp only [lookupVar, hk, if_false] at h
      exact ih (fun x hx => hv x (by simp [hx])) h

theorem condTruthy_empty (vars : List (Str × Str)) (nm : Str)
    (hv : ∀ kv ∈ vars, kv.2 = []) : condTruthy vars nm = false := by
  unfold condTruthy
  cases hl : lookupVar vars nm with
  | none => rfl
  | some v =>
    have hve := lookupVar_empty_values vars nm v hv hl
    subst hve
    rfl

theorem lookupVar_isSome_of_mem (vars : List (Str × Str)) (k v : Str)
    (h : (k, v) ∈ vars) : ∃ w, lookupVar vars k = some w := by
  induction vars with
  | nil => simp at h
  | cons kv rest ih =>
    obtain ⟨k2, v2⟩ := kv
    by_cases hk : k2 = k
    · exact ⟨v2, by simp [lookupVar, hk]⟩
    · have h2 : (k, v) ∈ rest := by
        rcases List.mem_cons.mp h with he | he
        · exact absurd (congrArg Prod.fst he).symm hk
        · exact he
      obtain ⟨w, hw⟩ := ih h2
      exact ⟨w, by simp [lookupVar, hk, hw]⟩

theorem matchLit_isSome_iff (pat s : Str) :
    (matchLit pat s).isSome = true ↔ ∃ r, s = pat ++ r := by
  constructor
  · intro h
    cases hm : matchLit pat s with
    | none => rw [hm] at h; simp at h
    | some r => exact ⟨r, matchLit_eq hm⟩
  · rintro ⟨r, rfl⟩
    rw [matchLit_self]
    rfl

theorem containsSeq_of_drop (pat s : Str) (n : Nat)
    (h : (matchLit pat (s.drop n)).isSome = true) : containsSeq pat s = true := by
  induction s generalizing n with
  | nil =>
    rw [List.drop_nil] at h
    cases pat with
    | nil => rfl
    | cons p pt => simp [matchLit] at h
  | cons c cs ih =>
    cases n with
    | zero =>
      rw [List.drop_zero] at h
      show ((matchLit pat (c :: cs)).isSome || containsSeq pat cs) = true
      rw [h]
      rfl
    | succ n =>
      show ((matchLit pat (c :: cs)).isSome || containsSeq pat cs) = true
      rw [ih n h]
      simp

theorem matchLit_shorten (pat s z r : Str) (hs : s ≠ []) (hp : pat ≠ [])
    (h : matchLit pat (s ++ (pat ++ z)) = some r) :
    (matchLit pat (s ++ pat.take (pat.length - 1))).isSome = true := by
  have he := matchLit_eq h
  have hs1 : 1 ≤ s.length := by
    cases s with
    | nil => exact absurd rfl hs
    | cons a b => simp
  have hp1 : 1 ≤ pat.length := by
    cases pat with
    | nil => exact absurd rfl hp
    | cons a b => simp
  have hpe : pat = (s ++ (pat ++ z)).take pat.length := by
    rw [he, List.take_append_eq_append_take]
    simp
  have htgt : (s ++ pat.take (pat.length - 1)).take pat.length = pat := by
    rw [List.take_append_eq_append_take] at hpe ⊢
    by_cases hcase : pat.length ≤ s.length
    · have h0 : pat.length - s.length = 0 := by omega
      rw [h0] at hpe ⊢
      simpa using hpe.symm
    · push_neg at hcase
      have hsL : s.take pat.length = s :=
        List.take_of_length_le (by omega)
      rw [hsL] at hpe ⊢
      have hinner : (pat ++ z).take (pat.length - s.length) =
          pat.take (pat.length - s.length) := by
        rw [List.take_append_eq_append_take]
        have h0 : pat.length - s.length - pat.length = 0 := by omega
        rw [h0]
        simp
      rw [hinner] at hpe
      rw [List.take_take]
      have hmin : min (pat.length - s.length) (pat.length - 1) =
          pat.length - s.length := by omega
      rw [hmin]
      exact hpe.symm
  rw [matchLit_isSome_iff]
  refine ⟨(s ++ pat.take (pat.length - 1)).drop pat.length, ?_⟩
  have hsplit :=
    (List.take_append_drop pat.length (s ++ pat.take (pat.length - 1))).symm
  rw [htgt] at hsplit
  exact hsplit

theorem close_no_spanning (inner rest : Str)
    (h : containsSeq closeTok (inner ++ closeTok.take 6) = false) :
    ∀ n, n < inner.length →
      matchLit closeTok (inner.drop n ++ (closeTok ++ rest)) = none := by
  intro n hn
  cases hm : matchLit closeTok (inner.drop n ++ (closeTok ++ rest)) with
  | none => rfl
  | some r =>
    exfalso
    have hs : inner.drop n ≠ [] := by
      intro hd
      have hlen : (inner.drop n).length = 0 := by rw [hd]; rfl
      rw [List.length_drop] at hlen
      omega
    have hshort := matchLit_shorten closeTok (inner.drop n) rest r hs (by decide) hm
    have h6 : closeTok.length - 1 = 6 := rfl
    rw [h6] at hshort
    have h2 : inner.drop n ++ closeTok.take 6 = (inner ++ closeTok.take 6).drop n := by
      rw [List.drop_append_eq_append_drop]
      have h0 : n - inner.length = 0 := by omega
      rw [h0]
      simp
    rw [h2] at hshort
    have hcontains := containsSeq_of_drop _ _ _ hshort
    rw [h] at hcontains
    exact absurd hcontains (by simp)

theorem segWF_cond {nm inner : Str} (h : segWF (Seg.cond nm inner) = true) :
    wordName nm = true ∧ containsSeq closeTok (inner ++ closeTok.take 6) = false := by
  unfold segWF at h
  rw [Bool.and_eq_true] at h
  refine ⟨h.1, ?_⟩
  have h2 := h.2
  simp at h2
  exact h2

theorem expandCond_flatten_empty (vars : List (Str × Str)) (t : List Seg)
    (hwf : ∀ sg ∈ t, segWF sg = true) (hve : ∀ kv ∈ vars, kv.2 = []) :
    expandCond vars (flatten t) = flattenPieces (t.map segDrop) := by
  induction t with
  | nil => rfl
  | cons sg t ih =>
    have hsg := hwf sg (by simp)
    have hrest : ∀ x ∈ t, segWF x = true :=
      fun x hx => hwf x (List.mem_cons_of_mem _ hx)
    rw [flatten_cons, List.map_cons, flattenPieces_cons]
    cases sg with
    | lit s =>
      show expandCond vars (s ++ flatten t) = s ++ flattenPieces (t.map segDrop)
      rw [expandCond_append_nolb vars s _ (noBrace_ne_lb hsg), ih hrest]
    | ph nm =>
      show expandCond vars (placeholderTok nm ++ flatten t) =
        placeholderTok nm ++ flattenPieces (t.map segDrop)
      rw [expandCond_tok vars nm _ hsg, ih hrest]
    | cond nm inner =>
      obtain ⟨hnm, hcs⟩ := segWF_cond hsg
      obtain ⟨hnmne, hnmw⟩ := wordName_parts hnm
      have hshape : flattenSeg (Seg.cond nm inner) ++ flatten t =
          litIf ++ ([' '] ++ (nm ++ (rbrb ++ (inner ++ (closeTok ++ flatten t))))) := by
        simp [flattenSeg, List.append_assoc]
      rw [hshape,
        expandCond_block vars [' '] nm inner (flatten t) (by simp) (by decide)
          hnmne hnmw (close_no_spanning inner (flatten t) hcs),
        condTruthy_empty vars nm hve]
      simp only [Bool.false_eq_true, if_false, List.nil_append]
      rw [ih hrest]
      rfl

theorem containsSeq_append_false (pat a b : Str)
    (ha : ∀ n, n < a.length → matchLit pat (a.drop n ++ b) = none)
    (hb : containsSeq pat b = false) :
    containsSeq pat (a ++ b) = false := by
  induction a with
  | nil => simpa using hb
  | cons c a ih =>
    show ((matchLit pat (c :: (a ++ b))).isSome || containsSeq pat (a ++ b)) = false
    have h0 : matchLit pat (c :: (a ++ b)) = none := by
      have := ha 0 (by simp)
      simpa using this
    rw [h0]
    have hihs := ih (fun n hn => by
      have := ha (n + 1) (by simp; omega)
      simpa using this)
    rw [hihs]
    rfl

theorem drop_cons_mem (s : Str) (n : Nat) (hn : n < s.length) :
    ∃ c cs, s.drop n = c :: cs ∧ c ∈ s := by
  induction s generalizing n with
  | nil => simp at hn
  | cons a as ih =>
    cases n with
    | zero => exact ⟨a, as, rfl, by simp⟩
    | succ n =>
      obtain ⟨c, cs, h1, h2⟩ := ih n (by simpa using hn)
      exact ⟨c, cs, h1, by simp [h2]⟩

theorem drop_head_ne_lb (s : Str) (hnb : ∀ c ∈ s, c ≠ Char.ofNat 123)
    (n : Nat) (hn : n < s.length) (b pt : Str) :
    matchLit (Char.ofNat 123 :: pt) (s.drop n ++ b) = none := by
  obtain ⟨c, cs, hd, hc⟩ := drop_cons_mem s n hn
  rw [hd, List.cons_append]
  exact matchLit_head_ne _ _ (hnb c hc)

theorem tok_no_occurrence (pt u b : Str) (hu : wordName u = true)
    (h0 : matchLit (Char.ofNat 123 :: Char.ofNat 123 :: pt) (placeholderTok u ++ b) = none) :
    ∀ n, n < (placeholderTok u).length →
      matchLit (Char.ofNat 123 :: Char.ofNat 123 :: pt)
        ((placeholderTok u).drop n ++ b) = none := by
  obtain ⟨u0, u2, huc, hu0⟩ := wordName_cons hu
  intro n hn
  cases n with
  | zero => simpa using h0
  | succ n1 =>
    cases n1 with
    | zero =>
      have e : (placeholderTok u).drop 1 ++ b = Char.ofNat 123 :: u0 ::
          (u2 ++ (Char.ofNat 125 :: Char.ofNat 125 :: b)) := by
        simp [placeholderTok, huc, List.append_assoc]
      rw [e]
      exact matchLit_lblb_ne pt _ (word_ne_lb hu0)
    | succ m =>
      have e : (placeholderTok u).drop (m + 2) =
          (u ++ [Char.ofNat 125, Char.ofNat 125]).drop m := by
        simp [placeholderTok, List.append_assoc]
      rw [e]
      have hchars : ∀ c ∈ u ++ [Char.ofNat 125, Char.ofNat 125], c ≠ Char.ofNat 123 := by
        intro c hc
        rcases List.mem_append.mp hc with hc | hc
        · exact word_ne_lb ((wordName_parts hu).2 c hc)
        · simp at hc
          rw [hc]; decide
      have hm : m < (u ++ [Char.ofNat 125, Char.ofNat 125]).length := by
        simp [placeholderTok] at hn
        simp
        omega
      exact drop_head_ne_lb _ hchars m hm b (Char.ofNat 123 :: pt)

theorem matchLit_litIf_tok (u b : Str) (hu : wordName u = true) :
    matchLit litIf (placeholderTok u ++ b) = none := by
  obtain ⟨u0, u2, huc, hu0⟩ := wordName_cons hu
  have e1 : placeholderTok u ++ b = Char.ofNat 123 :: Char.ofNat 123 ::
      (u0 :: (u2 ++ (Char.ofNat 125 :: Char.ofNat 125 :: b))) := by
    simp [placeholderTok, huc, List.append_assoc]
  rw [e1]
  have hne := word_ne_hash hu0
  simp [litIf, matchLit, hne]

theorem matchLit_closeTok_tok (u b : Str) (hu : wordName u = true) :
    matchLit closeTok (placeholderTok u ++ b) = none := by
  obtain ⟨u0, u2, huc, hu0⟩ := wordName_cons hu
  have e1 : placeholderTok u ++ b = Char.ofNat 123 :: Char.ofNat 123 ::
      (u0 :: (u2 ++ (Char.ofNat 125 :: Char.ofNat 125 :: b))) := by
    simp [placeholderTok, huc, List.append_assoc]
  rw [e1]
  have hne := word_ne_slash hu0
  simp [closeTok, matchLit, hne]

theorem containsSeq_pieces_false (pt : Str) (ps : List Piece)
    (hwf : ∀ p ∈ ps, pieceWF p = true)
    (h0 : ∀ u b, Piece.tok u ∈ ps →
      matchLit (Char.ofNat 123 :: Char.ofNat 123 :: pt) (placeholderTok u ++ b) = none) :
    containsSeq (Char.ofNat 123 :: Char.ofNat 123 :: pt) (flattenPieces ps) = false := by
  induction ps with
  | nil => rfl
  | cons p ps ih =>
    have hp := hwf p (by simp)
    have hrest : ∀ x ∈ ps, pieceWF x = true :=
      fun x hx => hwf x (List.mem_cons_of_mem _ hx)
    have h0rest : ∀ u b, Piece.tok u ∈ ps →
        matchLit (Char.ofNat 123 :: Char.ofNat 123 :: pt) (placeholderTok u ++ b) = none :=
      fun u b hu => h0 u b (List.mem_cons_of_mem _ hu)
    rw [flattenPieces_cons]
    cases p with
    | lit s =>
      apply containsSeq_append_false
      · intro n hn
        exact drop_head_ne_lb s (noBrace_ne_lb hp) n hn _ _
      · exact ih hrest h0rest
    | tok u =>
      apply containsSeq_append_false
      · exact tok_no_occurrence pt u _ hp (h0 u _ (by simp))
      · exact ih hrest h0rest

/-- C9 as stated fails on the raw body: removing a placeholder can
splice surrounding fragments into a brand-new placeholder token for the
same declared (and empty-valued) variable, which the single pass never
rescans, so an unresolved declared placeholder survives in the output. -/
theorem substituteVariables_all_empty_counterexample :
    substituteVariables
        ([Char.ofNat 123, Char.ofNat 123, 'n', 'a'] ++ (placeholderTok ("name".toList) ++
          ['m', 'e', Char.ofNat 125, Char.ofNat 125]))
        [("name".toList, [])] = placeholderTok ("name".toList) ∧
    containsSeq (placeholderTok ("name".toList))
      (substituteVariables
        ([Char.ofNat 123, Char.ofNat 123, 'n', 'a'] ++ (placeholderTok ("name".toList) ++
          ['m', 'e', Char.ofNat 125, Char.ofNat 125]))
        [("name".toList, [])]) = true :=
  ⟨rfl, rfl⟩

/-- C9 (amended): for a well-formed template — an alternation of
brace-free literal runs, placeholder tokens and conditional blocks whose
inner content has no (even boundary-spanning) block-end marker —
rendering with every declared variable mapped to the empty string
removes every conditional block and leaves no block delimiter and no
placeholder token of any declared variable in the output; on arbitrary
bodies the single-pass replacements can splice new tokens, which
survive. -/
theorem substituteVariables_all_empty_clean (t : List Seg) (vars : List (Str × Str))
    (hwf : ∀ sg ∈ t, segWF sg = true)
    (hv : ∀ kv ∈ vars, wordName kv.1 = true ∧ kv.2 = []) :
    containsSeq litIf (substituteVariables (flatten t) vars) = false ∧
    containsSeq closeTok (substituteVariables (flatten t) vars) = false ∧
    ∀ kv ∈ vars,
      containsSeq (placeholderTok kv.1) (substituteVariables (flatten t) vars) = false := by
  have hve : ∀ kv ∈ vars, kv.2 = [] := fun kv h => (hv kv h).2
  have hvwf : ∀ kv ∈ vars,
      wordName kv.1 = true ∧ noBrace kv.2 = true ∧ noDollar kv.2 = true :=
    fun kv h => ⟨(hv kv h).1, by rw [(hv kv h).2]; rfl, by rw [(hv kv h).2]; rfl⟩
  have hdropwf : ∀ p ∈ t.map segDrop, pieceWF p = true := by
    intro p hp
    rcases List.mem_map.mp hp with ⟨sg, hsg, he⟩
    have hw := hwf sg hsg
    cases sg with
    | lit s => rw [← he]; exact hw
    | ph nm => rw [← he]; exact hw
    | cond nm inner => rw [← he]; rfl
  have hstep : substituteVariables (flatten t) vars =
      flattenPieces ((t.map segDrop).map (substPiece vars)) := by
    unfold substituteVariables
    rw [expandCond_flatten_empty vars t hwf hve]
    exact substituteStep2_pieces vars (t.map segDrop) hvwf hdropwf
  have hfwf : ∀ p ∈ (t.map segDrop).map (substPiece vars), pieceWF p = true := by
    intro p hp
    rcases List.mem_map.mp hp with ⟨q, hq, he⟩
    cases q with
    | lit s => rw [← he]; exact hdropwf _ hq
    | tok u =>
      cases hl : lookupVar vars u with
      | some v =>
        rw [← he]
        simp only [substPiece, hl]
        have hvv := lookupVar_empty_values vars u v hve hl
        rw [hvv]
        rfl
      | none =>
        rw [← he]
        simp only [substPiece, hl]
        exact hdropwf _ hq
  have htokfree : ∀ u, Piece.tok u ∈ (t.map segDrop).map (substPiece vars) →
      lookupVar vars u = none := by
    intro u hu
    rcases List.mem_map.mp hu with ⟨q, hq, he⟩
    cases q with
    | lit s => simp [substPiece] at he
    | tok w =>
      cases hl : lookupVar vars w with
      | some v => simp [substPiece, hl] at he
      | none =>
        have hwu : w = u := by
          simp [substPiece, hl] at he
          exact he
        rw [← hwu]
        exact hl
  rw [hstep]
  refine ⟨?_, ?_, ?_⟩
  · exact containsSeq_pieces_false ['#', 'i', 'f'] _ hfwf
      (fun u b hu => matchLit_litIf_tok u b
        (by
          have := hfwf _ hu
          exact this))
  · exact containsSeq_pieces_false ['/', 'i', 'f', Char.ofNat 125, Char.ofNat 125] _ hfwf
      (fun u b hu => matchLit_closeTok_tok u b (hfwf _ hu))
  · intro kv hkv
    have hdecl : ∃ w, lookupVar vars kv.1 = some w :=
      lookupVar_isSome_of_mem vars kv.1 kv.2 (by
        obtain ⟨k, v⟩ := kv
        exact hkv)
    exact containsSeq_pieces_false (kv.1 ++ [Char.ofNat 125, Char.ofNat 125]) _ hfwf
      (fun u b hu => by
        have hune : u ≠ kv.1 := by
          intro he
          obtain ⟨w, hw⟩ := hdecl
          rw [← he] at hw
          rw [htokfree u hu] at hw
          exact Option.noConfusion hw
        exact matchLit_tok_ne u kv.1 b (hfwf _ hu) (hvwf kv hkv).1 hune)

theorem substituteVariables_all_empty_clean_witness :
    containsSeq litIf
      (substituteVariables
        (flatten [Seg.lit ("A ".toList), Seg.cond ("x".toList) ("inner".toList),
          Seg.ph ("x".toList), Seg.ph ("z".toList)])
        [("x".toList, [])]) = false ∧
    containsSeq closeTok
      (substituteVariables
        (flatten [Seg.lit ("A ".toList), Seg.cond ("x".toList) ("inner".toList),
          Seg.ph ("x".toList), Seg.ph ("z".toList)])
        [("x".toList, [])]) = false ∧
    ∀ kv ∈ ([("x".toList, [])] : List (Str × Str)),
      containsSeq (placeholderTok kv.1)
        (substituteVariables
          (flatten [Seg.lit ("A ".toList), Seg.cond ("x".toList) ("inner".toList),
            Seg.ph ("x".toList), Seg.ph ("z".toList)])
          [("x".toList, [])]) = false :=
  substituteVariables_all_empty_clean
    [Seg.lit ("A ".toList), Seg.cond ("x".toList) ("inner".toList),
      Seg.ph ("x".toList), Seg.ph ("z".toList)]
    [("x".toList, [])] (by decide) (by decide)

end ClaudeCast
